import Mathlib

/-
Verification of the organize engine of `hoardy-web` (`wrrarms`).

The definitions below are a shallow embedding of the Python sources:
  - `src/tool/wrrarms/__main__.py` : the organize engine
      (`SeenCounter`, `make_deferred_emit` with its `flush_updates`,
      `finish_updates`, `complete_intent` and `emit`, and
      `make_organize_emit` with `OrganizeSource` / `OrganizeIntent`).
  - `src/tool/hoardy_web/util.py` : `file_content_equals` and
      `fileobj_content_equals`.

Python `collections.OrderedDict` values are embedded as insertion-ordered
association lists; machine-level file system state is embedded as a finite
map from paths to file nodes; exceptions are embedded with `Except`.
-/

namespace HoardyWeb

/-! ## Association-list primitives (embedding of `collections.OrderedDict`) -/

abbrev Path := String

abbrev Bytes := List Nat

/-- Lookup of the first binding of a key in an association list
(`OrderedDict.__getitem__`, which never sees duplicate keys). -/
def lookupA {α : Type} : List (Path × α) → Path → Option α
  | [], _ => none
  | (k, v) :: rest, key => if k = key then some v else lookupA rest key

/-- Remove and return the first binding of a key (`OrderedDict.pop(key)`). -/
def popKey {α : Type} : List (Path × α) → Path → Option (α × List (Path × α))
  | [], _ => none
  | (k, v) :: rest, key =>
    if k = key then some (v, rest)
    else
      match popKey rest key with
      | none => none
      | some (w, rest2) => some (w, (k, v) :: rest2)

/-- Set a key: replace the first binding in place when the key is present,
append at the end otherwise (`OrderedDict.__setitem__`). -/
def setKey {α : Type} : List (Path × α) → Path → α → List (Path × α)
  | [], key, v => [(key, v)]
  | (k, w) :: rest, key, v =>
    if k = key then (key, v) :: rest else (k, w) :: setKey rest key v

/-- Pop the oldest binding (`OrderedDict.popitem(False)`). -/
def popFront {α : Type} : List (Path × α) → Option ((Path × α) × List (Path × α))
  | [] => none
  | e :: rest => some (e, rest)

/-- Sum of an integer-valued measure over an association list; used to
restate the engine memory account from its live collections. -/
def sumBy {α : Type} (f : Path × α → Int) (l : List (Path × α)) : Int :=
  l.foldr (fun e acc => f e + acc) 0

theorem sumBy_nil {α : Type} (f : Path × α → Int) : sumBy f [] = 0 := rfl

theorem sumBy_cons {α : Type} (f : Path × α → Int) (e : Path × α) (l : List (Path × α)) :
    sumBy f (e :: l) = f e + sumBy f l := rfl

theorem sumBy_append {α : Type} (f : Path × α → Int) (l m : List (Path × α)) :
    sumBy f (l ++ m) = sumBy f l + sumBy f m := by
  induction l with
  | nil => simp [sumBy_nil, sumBy]
  | cons e l ih => simp [sumBy_cons, ih]; ring

theorem sumBy_popKey {α : Type} (f : Path × α → Int) (l : List (Path × α)) (k : Path)
    (v : α) (rest : List (Path × α)) (h : popKey l k = some (v, rest)) :
    sumBy f rest = sumBy f l - f (k, v) := by
  induction l generalizing rest with
  | nil => simp [popKey] at h
  | cons e l ih =>
    obtain ⟨k1, v1⟩ := e
    by_cases hk : k1 = k
    · subst hk
      simp [popKey] at h
      obtain ⟨hv, hrest⟩ := h
      subst hv; subst hrest
      simp [sumBy_cons]
    · simp [popKey, hk] at h
      cases hpk : popKey l k with
      | none => rw [hpk] at h; simp at h
      | some p =>
        obtain ⟨w, rest2⟩ := p
        rw [hpk] at h
        simp at h
        obtain ⟨hv, hrest⟩ := h
        subst hv; subst hrest
        have := ih rest2 hpk
        simp [sumBy_cons, this]
        ring

theorem lookupA_none_notMem {α : Type} (l : List (Path × α)) (k : Path)
    (h : lookupA l k = none) : k ∉ l.map Prod.fst := by
  induction l with
  | nil => simp
  | cons e l ih =>
    obtain ⟨k1, v1⟩ := e
    by_cases hk : k1 = k
    · simp [lookupA, hk] at h
    · simp [lookupA, hk] at h
      simp [hk, ih h]
      intro hc
      exact hk hc.symm

theorem setKey_absent {α : Type} (l : List (Path × α)) (k : Path) (v : α)
    (h : lookupA l k = none) : setKey l k v = l ++ [(k, v)] := by
  induction l with
  | nil => rfl
  | cons e l ih =>
    obtain ⟨k1, v1⟩ := e
    by_cases hk : k1 = k
    · simp [lookupA, hk] at h
    · simp [lookupA, hk] at h
      simp [setKey, hk, ih h]

theorem sumBy_setKey_present {α : Type} (f : Path × α → Int) (l : List (Path × α))
    (k : Path) (old v : α) (h : lookupA l k = some old) :
    sumBy f (setKey l k v) = sumBy f l - f (k, old) + f (k, v) := by
  induction l with
  | nil => simp [lookupA] at h
  | cons e l ih =>
    obtain ⟨k1, v1⟩ := e
    by_cases hk : k1 = k
    · subst hk
      simp [lookupA] at h
      subst h
      simp [setKey, sumBy_cons]
      ring
    · simp [lookupA, hk] at h
      simp [setKey, hk, sumBy_cons, ih h]
      ring

theorem lookupA_setKey_self {α : Type} (l : List (Path × α)) (k : Path) (v : α) :
    lookupA (setKey l k v) k = some v := by
  induction l with
  | nil => simp [setKey, lookupA]
  | cons e l ih =>
    obtain ⟨k1, v1⟩ := e
    by_cases hk : k1 = k
    · simp [setKey, hk, lookupA]
    · simp [setKey, hk, lookupA, ih]

theorem lookupA_append_right {α : Type} (l : List (Path × α)) (k : Path) (v : α)
    (h : lookupA l k = none) : lookupA (l ++ [(k, v)]) k = some v := by
  induction l with
  | nil => simp [lookupA]
  | cons e l ih =>
    obtain ⟨k1, v1⟩ := e
    by_cases hk : k1 = k
    · simp [lookupA, hk] at h
    · simp [lookupA, hk] at h ⊢
      exact ih h

theorem notMem_lookupA_none {α : Type} (l : List (Path × α)) (k : Path)
    (h : k ∉ l.map Prod.fst) : lookupA l k = none := by
  induction l with
  | nil => rfl
  | cons e l ih =>
    obtain ⟨k1, v1⟩ := e
    rw [List.map_cons] at h
    have hne : k1 ≠ k := fun hc => h (by rw [hc]; exact List.mem_cons_self _ _)
    have h2 : k ∉ l.map Prod.fst := fun hc => h (List.mem_cons_of_mem _ hc)
    simp [lookupA, hne, ih h2]

theorem popKey_none_lookupA {α : Type} (l : List (Path × α)) (k : Path)
    (h : popKey l k = none) : lookupA l k = none := by
  induction l with
  | nil => rfl
  | cons e l ih =>
    obtain ⟨k1, v1⟩ := e
    by_cases hk : k1 = k
    · simp [popKey, hk] at h
    · simp [popKey, hk] at h
      cases hpk : popKey l k with
      | none => simp [lookupA, hk, ih hpk]
      | some p => rw [hpk] at h; exact absurd h (by simp)

theorem popKey_keys_subset {α : Type} (l : List (Path × α)) (k : Path) :
    ∀ (v : α) (rest : List (Path × α)), popKey l k = some (v, rest) →
      ∀ x ∈ rest.map Prod.fst, x ∈ l.map Prod.fst := by
  induction l with
  | nil => intro v rest h; simp [popKey] at h
  | cons e l ih =>
    obtain ⟨k1, v1⟩ := e
    intro v rest h
    by_cases hk : k1 = k
    · subst hk
      simp [popKey] at h
      obtain ⟨-, hrest⟩ := h
      subst hrest
      intro x hx
      exact List.mem_cons_of_mem _ hx
    · simp [popKey, hk] at h
      cases hpk : popKey l k with
      | none => rw [hpk] at h; simp at h
      | some p =>
        obtain ⟨w, rest2⟩ := p
        rw [hpk] at h
        simp at h
        obtain ⟨-, hrest⟩ := h
        subst hrest
        intro x hx
        rw [List.map_cons, List.mem_cons] at hx ⊢
        rcases hx with hx | hx
        · left; exact hx
        · right; exact ih w rest2 hpk x hx

theorem popKey_nodup_rest {α : Type} (l : List (Path × α)) (k : Path)
    (hnd : (l.map Prod.fst).Nodup) :
    ∀ (v : α) (rest : List (Path × α)), popKey l k = some (v, rest) →
      (rest.map Prod.fst).Nodup ∧ lookupA rest k = none := by
  induction l with
  | nil => intro v rest h; simp [popKey] at h
  | cons e l ih =>
    obtain ⟨k1, v1⟩ := e
    rw [List.map_cons, List.nodup_cons] at hnd
    obtain ⟨hk1, hnd2⟩ := hnd
    intro v rest h
    by_cases hk : k1 = k
    · subst hk
      simp [popKey] at h
      obtain ⟨-, hrest⟩ := h
      subst hrest
      exact ⟨hnd2, notMem_lookupA_none l k1 hk1⟩
    · simp [popKey, hk] at h
      cases hpk : popKey l k with
      | none => rw [hpk] at h; simp at h
      | some p =>
        obtain ⟨w, rest2⟩ := p
        rw [hpk] at h
        simp at h
        obtain ⟨-, hrest⟩ := h
        subst hrest
        obtain ⟨ih1, ih2⟩ := ih hnd2 w rest2 hpk
        constructor
        · rw [List.map_cons, List.nodup_cons]
          exact ⟨fun hc => hk1 (popKey_keys_subset l k w rest2 hpk k1 hc), ih1⟩
        · simp [lookupA, hk, ih2]

theorem setKey_keys_subset {α : Type} (l : List (Path × α)) (k : Path) (v : α) :
    ∀ x ∈ (setKey l k v).map Prod.fst, x ∈ l.map Prod.fst ∨ x = k := by
  induction l with
  | nil =>
    intro x hx
    right
    simpa [setKey] using hx
  | cons e l ih =>
    obtain ⟨k1, v1⟩ := e
    intro x hx
    by_cases hk : k1 = k
    · subst hk
      rw [show setKey ((k1, v1) :: l) k1 v = (k1, v) :: l from by simp [setKey]] at hx
      rw [List.map_cons, List.mem_cons] at hx
      rcases hx with hx | hx
      · right; exact hx
      · left; exact List.mem_cons_of_mem _ hx
    · simp only [setKey, if_neg hk, List.map_cons, List.mem_cons] at hx
      rcases hx with hx | hx
      · left; rw [List.map_cons, List.mem_cons]; left; exact hx
      · rcases ih x hx with h2 | h2
        · left; exact List.mem_cons_of_mem _ h2
        · right; exact h2

theorem setKey_nodup {α : Type} (l : List (Path × α)) (k : Path) (v : α)
    (hnd : (l.map Prod.fst).Nodup) : ((setKey l k v).map Prod.fst).Nodup := by
  induction l with
  | nil => simp [setKey]
  | cons e l ih =>
    obtain ⟨k1, v1⟩ := e
    rw [List.map_cons, List.nodup_cons] at hnd
    obtain ⟨hk1, hnd2⟩ := hnd
    by_cases hk : k1 = k
    · subst hk
      rw [show setKey ((k1, v1) :: l) k1 v = (k1, v) :: l from by simp [setKey]]
      rw [List.map_cons, List.nodup_cons]
      exact ⟨hk1, hnd2⟩
    · simp only [setKey, if_neg hk, List.map_cons]
      rw [List.nodup_cons]
      refine ⟨?_, ih hnd2⟩
      intro hc
      rcases setKey_keys_subset l k v k1 hc with h2 | h2
      · exact hk1 h2
      · exact hk h2

theorem sumBy_setKey_absent {α : Type} (f : Path × α → Int) (l : List (Path × α))
    (k : Path) (v : α) (h : lookupA l k = none) :
    sumBy f (setKey l k v) = sumBy f l + f (k, v) := by
  rw [setKey_absent l k v h, sumBy_append]
  simp [sumBy_cons, sumBy_nil]

theorem sumBy_ge_length {α : Type} (f : Path × α → Int) (l : List (Path × α))
    (h : ∀ e ∈ l, 1 ≤ f e) : (l.length : Int) ≤ sumBy f l := by
  induction l with
  | nil => simp [sumBy_nil]
  | cons e l ih =>
    simp only [sumBy_cons, List.length_cons]
    have h1 := h e (by simp)
    have h2 := ih (fun e2 he2 => h e2 (by simp [he2]))
    push_cast
    omega

/-! ## SeenCounter (embedding of `SeenCounter` in `__main__.py`)

The Python class shares a `Memory` object with the rest of the engine;
here the shared `Memory.consumption` integer is a field `mem`. -/

structure SeenCounter where
  mem : Int
  state : List (Path × Nat)
deriving Repr, DecidableEq

/-- Embedding of `SeenCounter.count`: on a new key store `0`, charge
`len(key)` to the memory account and return `0`; on a seen key store and
return the stored count plus one, leaving the account unchanged. -/
def SeenCounter.count (sc : SeenCounter) (v : Path) : Nat × SeenCounter :=
  match lookupA sc.state v with
  | none => (0, ⟨sc.mem + (v.length : Int), sc.state ++ [(v, 0)]⟩)
  | some c => (c + 1, ⟨sc.mem, setKey sc.state v (c + 1)⟩)

/-- Embedding of `SeenCounter.pop`: remove the oldest entry and refund its
key length to the memory account; `popitem` on an empty dict raises. -/
def SeenCounter.popOldest (sc : SeenCounter) : Option ((Path × Nat) × SeenCounter) :=
  match sc.state with
  | [] => none
  | (k, c) :: rest => some ((k, c), ⟨sc.mem - (k.length : Int), rest⟩)

/-- Result of the n-th of n consecutive `count` calls for the same key
(n ≥ 1), together with the final counter state. -/
def countN (v : Path) : Nat → SeenCounter → Nat × SeenCounter
  | 0, sc => (0, sc)
  | Nat.succ n, sc =>
    let p := sc.count v
    match n with
    | 0 => p
    | Nat.succ m => countN v (Nat.succ m) p.2

theorem countN_seen (v : Path) (n : Nat) (hn : 1 ≤ n) :
    ∀ (sc : SeenCounter) (c : Nat), lookupA sc.state v = some c →
      (countN v n sc).1 = c + n ∧ (countN v n sc).2.mem = sc.mem := by
  induction n with
  | zero => omega
  | succ n ih =>
    intro sc c h
    match n with
    | 0 =>
      simp [countN, SeenCounter.count, h]
    | Nat.succ m =>
      have hstep : sc.count v = (c + 1, ⟨sc.mem, setKey sc.state v (c + 1)⟩) := by
        simp [SeenCounter.count, h]
      have hlk : lookupA (setKey sc.state v (c + 1)) v = some (c + 1) :=
        lookupA_setKey_self _ _ _
      have := ih (by omega) ⟨sc.mem, setKey sc.state v (c + 1)⟩ (c + 1) hlk
      simp only [countN, hstep] at *
      obtain ⟨h1, h2⟩ := this
      constructor
      · rw [h1]; omega
      · exact h2

/-- C7. `SeenCounter.count` semantics: the first call for an absent key
returns 0 and charges `len(key)` to the memory account; consecutive calls
return successive values, the n-th call returning n - 1 with no further
memory charge; a call for an already-seen key stores and returns the
stored value plus one and leaves the memory account unchanged. -/
theorem seenCounter_count_spec (sc : SeenCounter) (v : Path) :
    (lookupA sc.state v = none →
      (sc.count v).1 = 0 ∧ (sc.count v).2.mem = sc.mem + (v.length : Int) ∧
      (∀ n : Nat, 1 ≤ n →
        (countN v n sc).1 = n - 1 ∧ (countN v n sc).2.mem = sc.mem + (v.length : Int)))
    ∧ (∀ c : Nat, lookupA sc.state v = some c →
      (sc.count v).1 = c + 1 ∧ (sc.count v).2.mem = sc.mem) := by
  constructor
  · intro h
    have hstep : sc.count v = (0, ⟨sc.mem + (v.length : Int), sc.state ++ [(v, 0)]⟩) := by
      simp [SeenCounter.count, h]
    refine ⟨by simp [hstep], by simp [hstep], ?_⟩
    intro n hn
    match n with
    | 1 => simp [countN, hstep]
    | Nat.succ (Nat.succ m) =>
      have hlk : lookupA (sc.state ++ [(v, 0)]) v = some 0 :=
        lookupA_append_right _ _ _ h
      have := countN_seen v (m + 1) (by omega)
        ⟨sc.mem + (v.length : Int), sc.state ++ [(v, 0)]⟩ 0 hlk
      simp only [countN, hstep] at *
      obtain ⟨h1, h2⟩ := this
      exact ⟨by rw [h1]; omega, h2⟩
  · intro c h
    simp [SeenCounter.count, h]

/-- Concrete witness for the C7 theorem: three consecutive calls on a fresh
key return 0, 1, 2, the memory account is charged once. -/
theorem seenCounter_count_spec_witness :
    (lookupA (SeenCounter.state ⟨0, []⟩) "a/b.wrr" = none) ∧
    (countN "a/b.wrr" 3 ⟨0, []⟩).1 = 2 ∧
    (countN "a/b.wrr" 3 ⟨0, []⟩).2.mem = 0 + ("a/b.wrr".length : Int) := by
  have h0 : lookupA (SeenCounter.state ⟨0, []⟩) "a/b.wrr" = none := rfl
  have := ((seenCounter_count_spec ⟨0, []⟩ "a/b.wrr").1 h0).2.2 3 (by omega)
  exact ⟨h0, this.1, this.2⟩

/-! ## File system model

A snapshot of the relevant file system state: a finite map from absolute
paths to nodes, where a node is a regular file or a symbolic link. A
regular file carries its bytes, its `st_dev`/`st_ino` stat identity, and
the source time its bytes parse to (`none` when the bytes are not a valid
reqres record); the reqres parser itself is an external collaborator and
is kept opaque. -/

/-- Stat identity of a file (the part of `os.stat_result` consulted by the
engine: `os.path.samestat` compares `st_dev` and `st_ino`). -/
structure StatRec where
  dev : Nat
  ino : Nat
deriving Repr, DecidableEq

/-- One file system node. -/
inductive FNode where
  | file (data : Bytes) (dev ino : Nat) (stime : Option Int)
  | symlink (target : Path)
deriving Repr, DecidableEq

abbrev FS := List (Path × FNode)

/-- Embedding of `os.lstat`: the node at the path itself. -/
def lstatFS (fs : FS) (p : Path) : Option FNode := lookupA fs p

/-- Embedding of `os.stat`: follow one symlink level; a dangling link (or
a longer chain, outside this model) raises `FileNotFoundError`. -/
def statFS (fs : FS) (p : Path) : Option StatRec :=
  match lookupA fs p with
  | some (.file _ dev ino _) => some ⟨dev, ino⟩
  | some (.symlink t) =>
    match lookupA fs t with
    | some (.file _ dev ino _) => some ⟨dev, ino⟩
    | _ => none
  | none => none

/-- Embedding of `os.path.realpath` restricted to the single-level links of
this model (only ever consulted after `os.stat` succeeded). -/
def realpathFS (fs : FS) (p : Path) : Path :=
  match lookupA fs p with
  | some (.symlink t) => t
  | _ => p

/-- Embedding of `open(path, "rb").read()`: the whole content of the file
at a path, following one symlink level; `none` models `FileNotFoundError`. -/
def readFile (fs : FS) (p : Path) : Option Bytes :=
  match lookupA fs p with
  | some (.file data _ _ _) => some data
  | some (.symlink t) =>
    match lookupA fs t with
    | some (.file data _ _ _) => some data
    | _ => none
  | none => none

/-- Source time obtained by parsing the bytes of the file at a path
(`wrr_loadf_expr(path).stime`); `none` models a parse failure. -/
def stimeOfFile (fs : FS) (p : Path) : Option Int :=
  match lookupA fs p with
  | some (.file _ _ _ st) => st
  | some (.symlink t) =>
    match lookupA fs t with
    | some (.file _ _ _ st) => st
    | _ => none
  | none => none

/-- Embedding of `os.path.samestat`. -/
def samestat (a b : StatRec) : Bool := a.dev = b.dev ∧ a.ino = b.ino

/-! ## `hoardy_web/util.py` content comparison -/

/-- Embedding of `fileobj_content_equals` from `util.py`: the remaining
bytes of the file object compared against `data`. -/
def fileobj_content_equals (fdata : Bytes) (data : Bytes) : Bool := fdata = data

/-- Embedding of `file_content_equals` from `util.py`: open the file and
compare its whole content; a `FileNotFoundError` is caught and yields
`False`. -/
def file_content_equals (fs : FS) (p : Path) (data : Bytes) : Bool :=
  match readFile fs p with
  | none => false
  | some d => fileobj_content_equals d data

/-! ## Organize action configuration (from `make_organize_emit`) -/

inductive Action where
  | move
  | copy
  | hardlink
  | symlink
deriving Repr, DecidableEq

structure Config where
  action : Action
  allow_updates : Bool
deriving Repr, DecidableEq

/-- `moving` flag set up by `make_organize_emit`. -/
def moving (cfg : Config) : Bool := cfg.action = Action.move

/-- `check_data` flag set up by `make_organize_emit` (cleared only for
`symlink`). -/
def check_data (cfg : Config) : Bool :=
  match cfg.action with
  | Action.symlink => false
  | _ => true

/-- `symlinking` flag set up by `make_organize_emit`. -/
def symlinking (cfg : Config) : Bool := cfg.action = Action.symlink

def actionName (a : Action) : String :=
  match a with
  | Action.move => "move"
  | Action.copy => "copy"
  | Action.hardlink => "hardlink"
  | Action.symlink => "symlink"

/-- Message suffix `not_allowed` from `__main__.py`. -/
def notAllowedMsg : String := "; this is not allowed to prevent accidental data loss"

/-- Message suffix `variance_help` from `__main__.py`. -/
def varianceHelpMsg : String :=
  "; your --output format fails to provide enough variance to solve this problem automatically (did your forget to place a %(num)d substitution in there?)" ++ notAllowedMsg

/-! ## OrganizeSource and OrganizeIntent -/

/-- Embedding of `OrganizeSource`. -/
structure OrganizeSource where
  abs_path : Path
  stat_result : StatRec
  stime_maybe : Option Int
deriving Repr, DecidableEq

/-- `OrganizeSource.approx_size`. -/
def OrganizeSource.approx_size (s : OrganizeSource) : Int := 128 + s.abs_path.length

/-- Embedding of `OrganizeSource.get_stime`: return the cached stime or
parse it from the source bytes, caching the result; `.error` models the
parse raising. -/
def getStime (fs : FS) (s : OrganizeSource) : Except Unit (Int × OrganizeSource) :=
  match s.stime_maybe with
  | some st => .ok (st, s)
  | none =>
    match stimeOfFile fs s.abs_path with
    | some st => .ok (st, { s with stime_maybe := some st })
    | none => .error ()

/-- Embedding of `OrganizeIntent` (a pending placement operation). -/
structure OrganizeIntent where
  source : OrganizeSource
  «exists» : Bool
deriving Repr, DecidableEq

/-- `OrganizeIntent.approx_size`. -/
def OrganizeIntent.approx_size (it : OrganizeIntent) : Int := 32 + it.source.approx_size

/-- Errors escaping the intent operations: `Failure` with its message, an
uncaught OS error (e.g. `FileNotFoundError` from `open`), or a reqres
parse failure inside `get_stime`. -/
inductive EngErr where
  | failureMsg (msg : String)
  | osError
  | parseError
  | assertViolation
deriving Repr, DecidableEq

/-- Embedding of `OrganizeIntent.update_from`, with an extra final flag
recording whether `self.source` was replaced by `new_source` (Python
compares the result against the old source by object identity;
the flag makes that identity explicit). -/
def updateFromEx (cfg : Config) (fs : FS) (it : OrganizeIntent) (new_source : OrganizeSource) :
    Except EngErr (OrganizeIntent × OrganizeSource × Bool × Bool) :=
  if symlinking cfg ∧ it.source.abs_path = new_source.abs_path then
    .ok (it, it.source, true, false)
  else
    let tail : Except EngErr (OrganizeIntent × OrganizeSource × Bool × Bool) :=
      if ¬cfg.allow_updates then .ok (it, it.source, false, false)
      else
        match getStime fs it.source with
        | .error _ => .error .parseError
        | .ok (so, oldc) =>
          match getStime fs new_source with
          | .error _ => .error .parseError
          | .ok (sn, newc) =>
            if so < sn then .ok ({ it with source := newc }, newc, true, true)
            else .ok ({ it with source := oldc }, oldc, true, false)
    if check_data cfg then
      if samestat it.source.stat_result new_source.stat_result then
        .ok (it, it.source, true, false)
      else
        match readFile fs it.source.abs_path with
        | none => .error .osError
        | some disk_data =>
          if file_content_equals fs new_source.abs_path disk_data then
            .ok (it, it.source, true, false)
          else tail
    else tail

/-- `OrganizeIntent.update_from` as the engine sees it: the updated intent,
the resulting source and the permission flag. -/
def update_from (cfg : Config) (fs : FS) (it : OrganizeIntent) (new_source : OrganizeSource) :
    Except EngErr (OrganizeIntent × OrganizeSource × Bool) :=
  (updateFromEx cfg fs it new_source).map (fun r => (r.1, r.2.1, r.2.2.1))

/-- Continuation of `OrganizeIntent.defer` after an `old_source` is in
hand (label `(SETSRC)` onwards in `__main__.py`). -/
def deferWithOld (cfg : Config) (fs : FS) (old_source new_source : OrganizeSource) :
    Except EngErr (Option OrganizeIntent × Option OrganizeSource × Bool) :=
  match updateFromEx cfg fs ⟨old_source, true⟩ new_source with
  | .error e => .error e
  | .ok (it2, source, permitted, adopted) =>
    if moving cfg ∧ permitted then
      .ok (some ⟨new_source, true⟩, some new_source, true)
    else if ¬adopted then
      .ok (none, some source, permitted)
    else
      .ok (some it2, some source, permitted)

/-- Embedding of `OrganizeIntent.defer`. -/
def defer (cfg : Config) (fs : FS) (abs_out_path : Path)
    (old_source : Option OrganizeSource) (new_source : OrganizeSource) :
    Except EngErr (Option OrganizeIntent × Option OrganizeSource × Bool) :=
  if new_source.abs_path = abs_out_path then
    .ok (none, old_source, true)
  else
    match old_source with
    | some old => deferWithOld cfg fs old new_source
    | none =>
      match lstatFS fs abs_out_path with
      | none => .ok (some ⟨new_source, false⟩, some new_source, true)
      | some (.symlink _) =>
        match statFS fs abs_out_path with
        | none => .ok (some ⟨new_source, true⟩, some new_source, true)
        | some out_stat =>
          if ¬symlinking cfg then
            .error (.failureMsg ("--" ++ actionName cfg.action ++ " is set but " ++
              abs_out_path ++ " exists and is a symlink" ++ notAllowedMsg))
          else
            deferWithOld cfg fs ⟨realpathFS fs abs_out_path, out_stat, none⟩ new_source
      | some (.file _ dev ino _) =>
        if symlinking cfg then
          .error (.failureMsg ("--" ++ actionName cfg.action ++ " is set but " ++
            abs_out_path ++ " exists and is not a symlink" ++ notAllowedMsg))
        else
          deferWithOld cfg fs ⟨abs_out_path, ⟨dev, ino⟩, none⟩ new_source

/-! ## Deferred-sync log and atomic file operations

`DeferredSync`, `atomic_move`, `atomic_copy2`, `atomic_link` and
`atomic_symlink` live in the repository io module, which is not under
`src/`; they are modelled from the spec here (sections 4.D and 4.G). -/

/-- Modelled from the spec: the deferred-sync log (`DeferredSync` of the
repository io module, absent from `src/`). Per section 4.D it collects
data fsyncs, directory fsyncs and post-success actions such as
"unlink source after a cross-device move". -/
structure DeferredSync where
  files : List Path
  dirs : List Path
  unlinks : List Path
deriving Repr, DecidableEq

/-- Parent directory of a path (up to the last separator). -/
def dirname (p : Path) : Path :=
  match (p.splitOn "/").dropLast with
  | [] => ""
  | parts => String.intercalate "/" parts

/-- OS errors raised by the atomic operations. -/
inductive OsErr where
  | enoent
  | eexist
  | exdev
deriving Repr, DecidableEq

/-- Device (filesystem) each path lives on; a parameter of the model. -/
abbrev DevMap := Path → Nat

/-- Remove the first binding of a key, if present. -/
def removeKey {α : Type} (l : List (Path × α)) (k : Path) : List (Path × α) :=
  match popKey l k with
  | none => l
  | some (_, rest) => rest

/-- A fresh inode number for a newly written file. -/
def freshIno (fs : FS) : Nat :=
  (fs.map (fun e =>
    match e.2 with
    | .file _ _ ino _ => ino
    | .symlink _ => 0)).foldr max 0 + 1

/-- Copy of a node to a destination: new inode on the destination device,
same bytes (and hence the same parse result). -/
def copyNode (devOf : DevMap) (fs : FS) (dst : Path) (n : FNode) : FNode :=
  match n with
  | .file data _ _ st => .file data (devOf dst) (freshIno fs) st
  | .symlink t => .symlink t

/-- Modelled from the spec: `atomic_move` of the repository io module,
absent from `src/`. Per section 4.G it performs the rename atomically,
queues directory fsyncs, and on cross-device `EXDEV` decomposes the move
into a copy (with a data fsync) plus an unlink of the source scheduled as
a post-success action in the sync log. `EEXIST` when the destination was
not expected to exist is raised. -/
def atomic_move (devOf : DevMap) (fs : FS) (src dst : Path) (ds : DeferredSync)
    («exists» : Bool) : Except OsErr (FS × DeferredSync) :=
  match lookupA fs src with
  | none => .error .enoent
  | some node =>
    if ¬«exists» ∧ (lookupA fs dst).isSome then .error .eexist
    else if devOf src = devOf dst then
      .ok (setKey (removeKey fs src) dst node,
           { ds with dirs := ds.dirs ++ [dirname dst, dirname src] })
    else
      .ok (setKey fs dst (copyNode devOf fs dst node),
           { ds with files := ds.files ++ [dst],
                     dirs := ds.dirs ++ [dirname dst],
                     unlinks := ds.unlinks ++ [src] })

/-- Modelled from the spec: `atomic_copy2` of the repository io module,
absent from `src/` (copy the bytes to a fresh inode, queue data and
directory fsyncs). -/
def atomic_copy2 (devOf : DevMap) (fs : FS) (src dst : Path) (ds : DeferredSync)
    («exists» : Bool) : Except OsErr (FS × DeferredSync) :=
  match lookupA fs src with
  | none => .error .enoent
  | some node =>
    if ¬«exists» ∧ (lookupA fs dst).isSome then .error .eexist
    else
      .ok (setKey fs dst (copyNode devOf fs dst node),
           { ds with files := ds.files ++ [dst], dirs := ds.dirs ++ [dirname dst] })

/-- Modelled from the spec: `atomic_link` of the repository io module,
absent from `src/` (hardlink, sharing the inode; raises `EXDEV` across
devices). -/
def atomic_link (devOf : DevMap) (fs : FS) (src dst : Path) (ds : DeferredSync)
    («exists» : Bool) : Except OsErr (FS × DeferredSync) :=
  match lookupA fs src with
  | none => .error .enoent
  | some node =>
    if ¬«exists» ∧ (lookupA fs dst).isSome then .error .eexist
    else if devOf src = devOf dst then
      .ok (setKey fs dst node, { ds with dirs := ds.dirs ++ [dirname dst] })
    else .error .exdev

/-- Modelled from the spec: `atomic_symlink` of the repository io module,
absent from `src/`. -/
def atomic_symlink (_devOf : DevMap) (fs : FS) (src dst : Path) (ds : DeferredSync)
    («exists» : Bool) : Except OsErr (FS × DeferredSync) :=
  if ¬«exists» ∧ (lookupA fs dst).isSome then .error .eexist
  else .ok (setKey fs dst (.symlink src), { ds with dirs := ds.dirs ++ [dirname dst] })

/-- `action_op` dispatch of `make_organize_emit`. -/
def actionOp (cfg : Config) : DevMap → FS → Path → Path → DeferredSync → Bool →
    Except OsErr (FS × DeferredSync) :=
  match cfg.action with
  | Action.move => atomic_move
  | Action.copy => atomic_copy2
  | Action.hardlink => atomic_link
  | Action.symlink => atomic_symlink

/-- Embedding of `OrganizeIntent.run`: assert the source differs from the
destination, short-circuit on dry runs, create the parent directories
(implicit in this directory-free model), perform the action, translating
`FileExistsError` and `EXDEV` into `Failure`s, and return the source as
the updated on-disk source at the destination. -/
def runIntent (cfg : Config) (devOf : DevMap) (fs : FS) (it : OrganizeIntent)
    (abs_out_path : Path) (ds : DeferredSync) (dry_run : Bool) :
    Except EngErr (FS × DeferredSync × Option OrganizeSource) :=
  if it.source.abs_path = abs_out_path then .error .assertViolation
  else if dry_run then .ok (fs, ds, some it.source)
  else
    match actionOp cfg devOf fs it.source.abs_path abs_out_path ds it.«exists» with
    | .error .eexist => .error (.failureMsg (abs_out_path ++ " already exists"))
    | .error .exdev =>
      .error (.failureMsg ("cant " ++ actionName cfg.action ++ " across file systems"))
    | .error .enoent => .error .osError
    | .ok (fs2, ds2) => .ok (fs2, ds2, some it.source)

theorem symlinking_eq_false_of_check_data (cfg : Config) (h : check_data cfg = true) :
    symlinking cfg = false := by
  cases hA : cfg.action <;> simp [check_data, hA] at h ⊢ <;> simp [symlinking, hA]

/-! ## Claim theorems about the concrete intent operations -/

/-- C10. `file_content_equals(path, data)` returns `False` when no file
exists at `path` (the `FileNotFoundError` is caught) and otherwise
returns `True` exactly when the whole content of the file equals `data`;
so a vanished file is treated as having differing content. -/
theorem file_content_equals_spec (fs : FS) (p : Path) (data : Bytes) :
    file_content_equals fs p data = true ↔ readFile fs p = some data := by
  unfold file_content_equals
  cases h : readFile fs p with
  | none => simp
  | some d => simp [fileobj_content_equals]

/-- C3. `update_from` on differing content (not the same inode and the
on-disk comparison finds different bytes): with updates allowed it is
permitted and adopts the new source exactly when the new stime is
strictly greater than the old; with updates not allowed it returns the
old source unpermitted. -/
theorem update_from_stime_rule (cfg : Config) (fs : FS) (it : OrganizeIntent)
    (new_source : OrganizeSource) (dd : Bytes) (so sn : Int)
    (hcd : check_data cfg = true)
    (hss : samestat it.source.stat_result new_source.stat_result = false)
    (hread : readFile fs it.source.abs_path = some dd)
    (hdiff : file_content_equals fs new_source.abs_path dd = false)
    (hso : it.source.stime_maybe = some so)
    (hsn : new_source.stime_maybe = some sn) :
    (cfg.allow_updates = true →
      update_from cfg fs it new_source =
        .ok ({ it with source := if so < sn then new_source else it.source },
             (if so < sn then new_source else it.source), true))
    ∧ (cfg.allow_updates = false →
      update_from cfg fs it new_source = .ok (it, it.source, false)) := by
  have hsym : symlinking cfg = false := symlinking_eq_false_of_check_data cfg hcd
  have hgs1 : getStime fs it.source = .ok (so, it.source) := by
    simp [getStime, hso]
  have hgs2 : getStime fs new_source = .ok (sn, new_source) := by
    simp [getStime, hsn]
  constructor
  · intro hau
    by_cases hlt : so < sn <;>
      simp [update_from, updateFromEx, hsym, hcd, hss, hread, hdiff, hau,
            hgs1, hgs2, hlt, Except.map]
  · intro hau
    simp [update_from, updateFromEx, hsym, hcd, hss, hread, hdiff, hau, Except.map]

/-- Witness for the C3 theorem: a concrete copy configuration with
updates allowed, two distinct files with different bytes and the newer
stime on the new source; `update_from` adopts the new source. -/
theorem update_from_stime_rule_witness :
    update_from ⟨Action.copy, true⟩
        [("/dst/a.wrr", FNode.file [1] 1 1 (some 1)), ("/in/b.wrr", FNode.file [2] 1 2 (some 5))]
        ⟨⟨"/dst/a.wrr", ⟨1, 1⟩, some 1⟩, true⟩ ⟨"/in/b.wrr", ⟨1, 2⟩, some 5⟩ =
      .ok (⟨⟨"/in/b.wrr", ⟨1, 2⟩, some 5⟩, true⟩, ⟨"/in/b.wrr", ⟨1, 2⟩, some 5⟩, true) := by
  have h := (update_from_stime_rule ⟨Action.copy, true⟩
    [("/dst/a.wrr", FNode.file [1] 1 1 (some 1)), ("/in/b.wrr", FNode.file [2] 1 2 (some 5))]
    ⟨⟨"/dst/a.wrr", ⟨1, 1⟩, some 1⟩, true⟩ ⟨"/in/b.wrr", ⟨1, 2⟩, some 5⟩
    [1] 1 5 (by decide) (by decide) (by decide) (by decide) rfl rfl).1 rfl
  simpa using h

/-- C5 counterexample. For the `symlink` action family the claimed
`samestat → noop` rule fails: with two same-inode sources at different
paths and updates disallowed, `update_from` returns `(old, False)`,
not `(old, True)`. -/
theorem update_from_samestat_symlink_counterexample :
    samestat (StatRec.mk 1 7) (StatRec.mk 1 7) = true ∧
    update_from ⟨Action.symlink, false⟩ [] ⟨⟨"/arch/a.wrr", ⟨1, 7⟩, some 0⟩, true⟩
        ⟨"/in/b.wrr", ⟨1, 7⟩, some 1⟩ =
      .ok (⟨⟨"/arch/a.wrr", ⟨1, 7⟩, some 0⟩, true⟩, ⟨"/arch/a.wrr", ⟨1, 7⟩, some 0⟩, false) ∧
    update_from ⟨Action.symlink, false⟩ [] ⟨⟨"/arch/a.wrr", ⟨1, 7⟩, some 0⟩, true⟩
        ⟨"/in/b.wrr", ⟨1, 7⟩, some 1⟩ ≠
      .ok (⟨⟨"/arch/a.wrr", ⟨1, 7⟩, some 0⟩, true⟩, ⟨"/arch/a.wrr", ⟨1, 7⟩, some 0⟩, true) := by
  have h : update_from ⟨Action.symlink, false⟩ []
      ⟨⟨"/arch/a.wrr", ⟨1, 7⟩, some 0⟩, true⟩ ⟨"/in/b.wrr", ⟨1, 7⟩, some 1⟩ =
      .ok (⟨⟨"/arch/a.wrr", ⟨1, 7⟩, some 0⟩, true⟩, ⟨"/arch/a.wrr", ⟨1, 7⟩, some 0⟩, false) := by
    rfl
  refine ⟨by decide, h, ?_⟩
  intro hc
  rw [h] at hc
  simp at hc

/-- C5 as amended: for the data-comparing action families (`move`,
`copy`, `hardlink`) a new source whose stat record denotes the same inode
as the intent's current source is a no-op — `update_from` returns the old
source unchanged with `permitted = True`; for `symlink` the no-op
short-circuit is keyed on equal source paths instead of `samestat`. -/
theorem update_from_samestat_noop (cfg : Config) (fs : FS) (it : OrganizeIntent)
    (new_source : OrganizeSource)
    (hcd : check_data cfg = true)
    (hss : samestat it.source.stat_result new_source.stat_result = true) :
    update_from cfg fs it new_source = .ok (it, it.source, true) := by
  have hsym : symlinking cfg = false := symlinking_eq_false_of_check_data cfg hcd
  simp [update_from, updateFromEx, hsym, hcd, hss, Except.map]

/-- Witness for the amended C5 theorem: a concrete hardlink intent and a
same-inode new source. -/
theorem update_from_samestat_noop_witness :
    update_from ⟨Action.hardlink, false⟩ [] ⟨⟨"/arch/a.wrr", ⟨1, 7⟩, some 0⟩, true⟩
        ⟨"/in/b.wrr", ⟨1, 7⟩, some 1⟩ =
      .ok (⟨⟨"/arch/a.wrr", ⟨1, 7⟩, some 0⟩, true⟩, ⟨"/arch/a.wrr", ⟨1, 7⟩, some 0⟩, true) :=
  update_from_samestat_noop ⟨Action.hardlink, false⟩ []
    ⟨⟨"/arch/a.wrr", ⟨1, 7⟩, some 0⟩, true⟩ ⟨"/in/b.wrr", ⟨1, 7⟩, some 1⟩
    (by decide) (by decide)

/-- C6 counterexample. When the destination is a dangling symlink
(`lstat` sees a symlink but resolving it fails), `defer` under a
non-symlink action does not refuse: it returns a replace intent for the
new source with `permitted = True`. -/
theorem defer_dangling_symlink_counterexample :
    lstatFS [("/dst/x.wrr", FNode.symlink "/gone")] "/dst/x.wrr" =
      some (FNode.symlink "/gone") ∧
    defer ⟨Action.move, false⟩ [("/dst/x.wrr", FNode.symlink "/gone")] "/dst/x.wrr"
        none ⟨"/in/a.wrr", ⟨1, 2⟩, some 3⟩ =
      .ok (some ⟨⟨"/in/a.wrr", ⟨1, 2⟩, some 3⟩, true⟩,
           some ⟨"/in/a.wrr", ⟨1, 2⟩, some 3⟩, true) ∧
    ∀ e, defer ⟨Action.move, false⟩ [("/dst/x.wrr", FNode.symlink "/gone")] "/dst/x.wrr"
        none ⟨"/in/a.wrr", ⟨1, 2⟩, some 3⟩ ≠ .error e := by
  have h : defer ⟨Action.move, false⟩ [("/dst/x.wrr", FNode.symlink "/gone")] "/dst/x.wrr"
      none ⟨"/in/a.wrr", ⟨1, 2⟩, some 3⟩ =
      .ok (some ⟨⟨"/in/a.wrr", ⟨1, 2⟩, some 3⟩, true⟩,
           some ⟨"/in/a.wrr", ⟨1, 2⟩, some 3⟩, true) := by rfl
  refine ⟨rfl, h, ?_⟩
  intro e hc
  rw [h] at hc
  exact Except.noConfusion hc

/-- C6 as amended: when `defer` runs with no cached old source and
`lstat` shows the destination is a symlink, then: if the symlink is
dangling (`stat` fails) the destination is treated as replaceable under
every action; if it resolves, every action other than `symlink` refuses
with a user-facing diagnostic, while the `symlink` action adopts the
resolved target path (with the resolved stat record) as the old source. -/
theorem defer_symlink_target_rule (cfg : Config) (fs : FS) (out : Path)
    (new_source : OrganizeSource) (t : Path)
    (hnew : new_source.abs_path ≠ out)
    (hl : lstatFS fs out = some (FNode.symlink t)) :
    (statFS fs out = none →
      defer cfg fs out none new_source =
        .ok (some ⟨new_source, true⟩, some new_source, true))
    ∧ (∀ st, statFS fs out = some st → symlinking cfg = false →
      defer cfg fs out none new_source =
        .error (.failureMsg ("--" ++ actionName cfg.action ++ " is set but " ++
          out ++ " exists and is a symlink" ++ notAllowedMsg)))
    ∧ (∀ st, statFS fs out = some st → symlinking cfg = true →
      defer cfg fs out none new_source =
        deferWithOld cfg fs ⟨realpathFS fs out, st, none⟩ new_source) := by
  refine ⟨fun hst => ?_, fun st hst hsym => ?_, fun st hst hsym => ?_⟩
  · simp [defer, hnew, hl, hst]
  · simp [defer, hnew, hl, hst, hsym]
  · simp [defer, hnew, hl, hst, hsym]

/-- Witness for the amended C6 theorem: a resolvable symlink destination
under the move action makes `defer` fail with the symlink diagnostic. -/
theorem defer_symlink_target_rule_witness :
    defer ⟨Action.move, false⟩
        [("/dst/x.wrr", FNode.symlink "/real.wrr"), ("/real.wrr", FNode.file [7] 1 5 none)]
        "/dst/x.wrr" none ⟨"/in/a.wrr", ⟨1, 2⟩, some 3⟩ =
      .error (.failureMsg ("--" ++ actionName Action.move ++ " is set but " ++
        "/dst/x.wrr" ++ " exists and is a symlink" ++ notAllowedMsg)) :=
  (defer_symlink_target_rule ⟨Action.move, false⟩
      [("/dst/x.wrr", FNode.symlink "/real.wrr"), ("/real.wrr", FNode.file [7] 1 5 none)]
      "/dst/x.wrr" ⟨"/in/a.wrr", ⟨1, 2⟩, some 3⟩ "/real.wrr"
      (by decide) rfl).2.1 ⟨1, 5⟩ rfl rfl

/-- C2 (with `atomic_move` modelled from the spec). When the source and
destination of a move live on different filesystems, `run` still
succeeds: the rename is downgraded to a copy of the data — the
destination ends up holding the source bytes — plus an unlink of the
source scheduled as a post-success action in the deferred-sync log. -/
theorem move_exdev_downgrade (devOf : DevMap) (fs : FS) (src dst : Path)
    (data : Bytes) (dev ino : Nat) (pst stm : Option Int) (stt : StatRec)
    (ex : Bool) (ds : DeferredSync)
    (hne : src ≠ dst)
    (hsrc : lookupA fs src = some (FNode.file data dev ino pst))
    (hdst : lookupA fs dst = none)
    (hx : devOf src ≠ devOf dst) :
    runIntent ⟨Action.move, false⟩ devOf fs ⟨⟨src, stt, stm⟩, ex⟩ dst ds false =
      .ok (setKey fs dst (.file data (devOf dst) (freshIno fs) pst),
           ⟨ds.files ++ [dst], ds.dirs ++ [dirname dst], ds.unlinks ++ [src]⟩,
           some ⟨src, stt, stm⟩)
    ∧ readFile (setKey fs dst (.file data (devOf dst) (freshIno fs) pst)) dst =
        some data := by
  constructor
  · simp only [runIntent, actionOp, atomic_move, hne, if_false, hsrc, hdst,
      Option.isSome_none, Bool.and_false, hx, if_neg, copyNode]
    simp [hne, hx]
  · simp [readFile, lookupA_setKey_self]

/-! ## The deferred-emit engine (embedding of `make_deferred_emit`)

`make_deferred_emit` is generic in the `DeferredIO` implementation it is
handed; the embedding mirrors this with a record of operations. The file
system side effects of `run` are abstracted into the result of `runOp`
(the engine only observes the returned updated source or the caught
`Failure`). -/

inductive ErrPolicy where
  | failP
  | skipP
  | ignoreP
deriving Repr, DecidableEq

/-- Externally observable events of a flush, in program order: a
deferred intent being executed, the deferred-sync log `sync()`, a
destination path written to the reporting channel, the reporting channel
fsync, and the deferred-sync log `finish()` (post-success cleanups). -/
inductive Ev where
  | runIntent (p : Path)
  | syncLog
  | report (p : Path)
  | reportFsync
  | finishCleanups
deriving Repr, DecidableEq

/-- Operations a `DeferredIO` implementation provides to the engine. -/
structure DeferredOps (Src Intent : Type) where
  srcSize : Src → Int
  intentSize : Intent → Int
  deferOp : Path → Option Src → Src → Except EngErr (Option Intent × Option Src × Bool)
  updateOp : Intent → Src → Except EngErr (Intent × Src × Bool)
  runOp : Intent → Path → Except Unit (Option Src)

/-- The engine state closed over by `make_deferred_emit`: the shared
memory account, the seen counter contents, the deferred intent queue and
the source cache (all insertion-ordered). -/
structure EngineState (Src Intent : Type) where
  mem : Int
  seen : List (Path × Nat)
  deferred : List (Path × Intent)
  cache : List (Path × Src)

/-- The engine-relevant command line arguments. `max_memory_bytes` is the
precomputed `cargs.max_memory * 1024 * 1024`; `terminator` records
whether reporting is enabled. -/
structure Cargs where
  max_deferred : Nat
  max_seen : Nat
  max_cached : Nat
  max_batched : Nat
  max_memory_bytes : Int
  terminator : Bool
  errors : ErrPolicy
  lazy : Bool

/-- Embedding of `complete_intent` inside `flush_updates`: refund the
intent's memory, run it, apply the `errors` policy on `Failure`
(`fail` raises `CatastrophicFailure`, modelled as `.error ()`), record
the destination for reporting, and learn the updated on-disk source in
the source cache with memory accounting. The intent has already been
popped from the queue by the caller. -/
def completeIntent {Src Intent : Type} (ops : DeferredOps Src Intent) (pol : ErrPolicy)
    (term : Bool) (p : Path) (it : Intent) (st : EngineState Src Intent)
    (done : List Path) : Except Unit (EngineState Src Intent × List Path) :=
  let st1 : EngineState Src Intent := { st with mem := st.mem - (ops.intentSize it + p.length) }
  match ops.runOp it p with
  | .error _ =>
    match pol with
    | .ignoreP => .ok (st1, done)
    | .skipP => .ok (st1, done)
    | .failP => .error ()
  | .ok updated =>
    let done1 := if term then done ++ [p] else done
    match updated with
    | none => .ok (st1, done1)
    | some u =>
      let refund : Int :=
        match lookupA st1.cache p with
        | none => 0
        | some old => ops.srcSize old + p.length
      .ok ({ st1 with cache := setKey st1.cache p u,
                      mem := st1.mem - refund + (ops.srcSize u + p.length) }, done1)

/-- Embedding of the seen-counter drain loop of `flush_updates`. The
first `Nat` argument is the running `num_seen` counter (the loop pops one
seen entry per iteration), the second the running `num_deferred`
counter. Returns the state, the reported paths, the remaining
`num_deferred` and the destinations of the intents executed by the loop,
in execution order. -/
def drainSeen {Src Intent : Type} (ops : DeferredOps Src Intent) (pol : ErrPolicy)
    (term : Bool) (maxSeen : Nat) (maxMem : Int) :
    Nat → Nat → EngineState Src Intent → List Path →
    Except Unit (EngineState Src Intent × List Path × Nat × List Path)
  | 0, nd, st, done => .ok (st, done, nd, [])
  | Nat.succ ns, nd, st, done =>
    if Nat.succ ns > maxSeen ∨ st.mem > maxMem then
      match st.seen with
      | [] => .error ()
      | (k, _) :: seenRest =>
        let st1 : EngineState Src Intent :=
          { st with seen := seenRest, mem := st.mem - (k.length : Int) }
        match popKey st1.deferred k with
        | none => drainSeen ops pol term maxSeen maxMem ns nd st1 done
        | some (it, defRest) =>
          match completeIntent ops pol term k it { st1 with deferred := defRest } done with
          | .error e => .error e
          | .ok (st2, done2) =>
            match drainSeen ops pol term maxSeen maxMem ns (nd - 1) st2 done2 with
            | .error e => .error e
            | .ok (st3, done3, nd3, ran) => .ok (st3, done3, nd3, k :: ran)
    else .ok (st, done, nd, [])

/-- Embedding of the intent-queue drain loop of `flush_updates`; the
`Nat` argument is the running `num_deferred` counter. The last component
lists the destinations of the executed intents in execution order. -/
def drainIntents {Src Intent : Type} (ops : DeferredOps Src Intent) (pol : ErrPolicy)
    (term : Bool) (maxDef : Nat) (maxMem : Int) :
    Nat → EngineState Src Intent → List Path →
    Except Unit (EngineState Src Intent × List Path × List Path)
  | 0, st, done => .ok (st, done, [])
  | Nat.succ nd, st, done =>
    if Nat.succ nd > maxDef ∨ st.mem > maxMem then
      match popFront st.deferred with
      | none => .error ()
      | some ((p, it), defRest) =>
        match completeIntent ops pol term p it { st with deferred := defRest } done with
        | .error e => .error e
        | .ok (st2, done2) =>
          match drainIntents ops pol term maxDef maxMem nd st2 done2 with
          | .error e => .error e
          | .ok (st3, done3, ran) => .ok (st3, done3, p :: ran)
    else .ok (st, done, [])

/-- Embedding of the source-cache drain loop of `flush_updates`; the
`Nat` argument is the `num_cached` counter snapshotted at flush entry. -/
def drainCache {Src Intent : Type} (ops : DeferredOps Src Intent) (maxCached : Nat)
    (maxMem : Int) : Nat → EngineState Src Intent →
    Except Unit (EngineState Src Intent)
  | 0, st => .ok st
  | Nat.succ nc, st =>
    if Nat.succ nc > maxCached ∨ st.mem > maxMem then
      match popFront st.cache with
      | none => .error ()
      | some ((p, s), cacheRest) =>
        drainCache ops maxCached maxMem nc
          { st with cache := cacheRest, mem := st.mem - (ops.srcSize s + p.length) }
    else .ok st

/-- Embedding of `flush_updates(final)`: budget check, seen-counter drain
(executing intents for evicted keys), the `max_batched` grace margin,
intent-queue drain, `dsync.sync()`, reporting with an fsync of the
reporting channel, `dsync.finish()`, and the source-cache drain. Returns
the state and the event trace; `.error ()` models a propagating
`CatastrophicFailure` (or an engine-invariant `KeyError`). -/
def flushUpdates {Src Intent : Type} (ops : DeferredOps Src Intent) (cargs : Cargs)
    (final : Bool) (st : EngineState Src Intent) :
    Except Unit (EngineState Src Intent × List Ev) :=
  let maxDef : Nat := if final then 0 else cargs.max_deferred
  let maxMem : Int := if final then 0 else cargs.max_memory_bytes
  let nd := st.deferred.length
  let nc := st.cache.length
  let ns := st.seen.length
  if nd ≤ maxDef ∧ nc ≤ cargs.max_cached ∧ ns ≤ cargs.max_seen ∧ st.mem ≤ maxMem then
    .ok (st, [])
  else
    match drainSeen ops cargs.errors cargs.terminator cargs.max_seen maxMem ns nd st [] with
    | .error e => .error e
    | .ok (st1, done1, nd1, ran1) =>
      let maxDef2 : Nat :=
        if ¬final ∧ nd1 ≤ maxDef + cargs.max_batched ∧ st1.mem ≤ maxMem then
          maxDef + cargs.max_batched
        else maxDef
      match drainIntents ops cargs.errors cargs.terminator maxDef2 maxMem nd1 st1 done1 with
      | .error e => .error e
      | .ok (st2, done2, ran2) =>
        let evMid : List Ev :=
          Ev.syncLog ::
            ((if cargs.terminator then done2.map Ev.report ++ [Ev.reportFsync] else []) ++
             [Ev.finishCleanups])
        match drainCache ops cargs.max_cached maxMem nc st2 with
        | .error e => .error e
        | .ok st3 => .ok (st3, (ran1 ++ ran2).map Ev.runIntent ++ evMid)

/-- Embedding of `finish_updates`: a final flush followed by the
`assert mem.consumption == 0`; a failing assertion is `.error ()`. -/
def finishUpdates {Src Intent : Type} (ops : DeferredOps Src Intent) (cargs : Cargs)
    (st : EngineState Src Intent) : Except Unit (EngineState Src Intent × List Ev) :=
  match flushUpdates ops cargs true st with
  | .error e => .error e
  | .ok (st1, ev) => if st1.mem = 0 then .ok (st1, ev) else .error ()

/-- Errors escaping `emit`. -/
inductive EmitErr where
  | opFail (e : EngErr)
  | fatalFail (msg : String)
  | flushFail
  | noFuel
deriving Repr, DecidableEq

/-- Embedding of the retry loop inside `emit`: count the base key, format
and absolutize the candidate destination, pop any cached source and any
queued intent for it (with memory refunds), `defer` or `update_from`,
reinstate the results (with memory charges), and retry on refusal unless
the destination stopped varying, in which case the fatal "destination
already exists" `Failure` with the variance hint is raised. `relOf n` is
`os.path.join(destination, output_format % rrexpr)` at `num = n` and
`absOf` is `os.path.abspath`. -/
def emitStep {Src Intent : Type} (ops : DeferredOps Src Intent)
    (relOf : Nat → Path) (absOf : Path → Path) (baseKey : Path) (new_source : Src)
    (st : EngineState Src Intent) :
    Except EngErr (Option Intent × Bool × Path × Path × EngineState Src Intent) :=
  let cnt := SeenCounter.count ⟨st.mem, st.seen⟩ baseKey
  let st1 : EngineState Src Intent :=
    { st with mem := cnt.2.mem, seen := cnt.2.state }
  let rel := relOf cnt.1
  let abs := absOf rel
  let oldPop : Option Src × EngineState Src Intent :=
    match popKey st1.cache abs with
    | none => (none, st1)
    | some (o, cacheRest) =>
      (some o, { st1 with cache := cacheRest,
                          mem := st1.mem - (ops.srcSize o + abs.length) })
  let old_source := oldPop.1
  let st2 := oldPop.2
  let stepRes : Except EngErr ((Option Intent × Option Src × Bool) × EngineState Src Intent) :=
    match popKey st2.deferred abs with
    | none =>
      match ops.deferOp abs old_source new_source with
      | .error e => .error e
      | .ok r => .ok (r, st2)
    | some (it, defRest) =>
      let st3 : EngineState Src Intent :=
        { st2 with deferred := defRest,
                   mem := st2.mem - (ops.intentSize it + abs.length) }
      match ops.updateOp it new_source with
      | .error e => .error e
      | .ok (it2, u, perm) => .ok ((some it2, some u, perm), st3)
  match stepRes with
  | .error e => .error e
  | .ok ((intent, updated_source, permitted), st4) =>
    let st5 : EngineState Src Intent :=
      match intent with
      | none => st4
      | some i => { st4 with deferred := setKey st4.deferred abs i,
                             mem := st4.mem + (ops.intentSize i + abs.length) }
    let st6 : EngineState Src Intent :=
      match updated_source with
      | none => st5
      | some u => { st5 with cache := setKey st5.cache abs u,
                             mem := st5.mem + (ops.srcSize u + abs.length) }
    .ok (intent, permitted, rel, abs, st6)

def emitLoop {Src Intent : Type} (ops : DeferredOps Src Intent)
    (relOf : Nat → Path) (absOf : Path → Path) (baseKey : Path) (new_source : Src) :
    Nat → Option Path → EngineState Src Intent →
    Except EmitErr (EngineState Src Intent × Option Intent × Path)
  | 0, _, _ => .error .noFuel
  | Nat.succ fuel, prev, st =>
    match emitStep ops relOf absOf baseKey new_source st with
    | .error e => .error (.opFail e)
    | .ok (intent, permitted, rel, abs, st6) =>
      if permitted then .ok (st6, intent, abs)
      else if prev = some rel then
        .error (.fatalFail ("destination already exists" ++ varianceHelpMsg))
      else emitLoop ops relOf absOf baseKey new_source fuel (some rel) st6

/-- Embedding of `emit`: run the retry loop (the base key `baseKey` is
the destination formatted at `num = 0`), report pure no-ops immediately,
and flush unless lazy. -/
def emit {Src Intent : Type} (ops : DeferredOps Src Intent) (cargs : Cargs)
    (relOf : Nat → Path) (absOf : Path → Path) (new_source : Src) (fuel : Nat)
    (st : EngineState Src Intent) :
    Except EmitErr (EngineState Src Intent × List Ev) :=
  match emitLoop ops relOf absOf (relOf 0) new_source fuel none st with
  | .error e => .error e
  | .ok (st1, intent, abs) =>
    let ev0 : List Ev :=
      if intent.isNone ∧ cargs.terminator then [Ev.report abs] else []
    if cargs.lazy then .ok (st1, ev0)
    else
      match flushUpdates ops cargs false st1 with
      | .error _ => .error .flushFail
      | .ok (st2, ev) => .ok (st2, ev0 ++ ev)

/-! ## The memory-accounting invariant -/

/-- Total length of the keys held by the seen counter. -/
def sumSeen (seen : List (Path × Nat)) : Int :=
  sumBy (fun e => (e.1.length : Int)) seen

/-- Total `approx_size() + len(key)` of the queued intents. -/
def sumIntents {Src Intent : Type} (ops : DeferredOps Src Intent)
    (l : List (Path × Intent)) : Int :=
  sumBy (fun e => ops.intentSize e.2 + (e.1.length : Int)) l

/-- Total `approx_size() + len(key)` of the cached sources. -/
def sumCache {Src Intent : Type} (ops : DeferredOps Src Intent)
    (l : List (Path × Src)) : Int :=
  sumBy (fun e => ops.srcSize e.2 + (e.1.length : Int)) l

/-- The memory account equals the footprint of the live collections. -/
def Accounted {Src Intent : Type} (ops : DeferredOps Src Intent)
    (st : EngineState Src Intent) : Prop :=
  st.mem = sumCache ops st.cache + sumIntents ops st.deferred + sumSeen st.seen

/-- The dictionary model is sound: each `OrderedDict` holds every key at
most once. -/
def KeysOk {Src Intent : Type} (st : EngineState Src Intent) : Prop :=
  (st.deferred.map Prod.fst).Nodup ∧ (st.cache.map Prod.fst).Nodup

/-- Well-formed engine state. -/
def WF {Src Intent : Type} (ops : DeferredOps Src Intent)
    (st : EngineState Src Intent) : Prop :=
  KeysOk st ∧ Accounted ops st

theorem completeIntent_WF {Src Intent : Type} (ops : DeferredOps Src Intent)
    (pol : ErrPolicy) (term : Bool) (p : Path) (it : Intent)
    (st st2 : EngineState Src Intent) (done done2 : List Path)
    (hkeys : KeysOk st)
    (hacc : st.mem = sumCache ops st.cache + sumIntents ops st.deferred + sumSeen st.seen
        + (ops.intentSize it + (p.length : Int)))
    (h : completeIntent ops pol term p it st done = .ok (st2, done2)) :
    WF ops st2 ∧ st2.seen = st.seen ∧ st2.deferred = st.deferred := by
  simp only [completeIntent] at h
  cases hro : ops.runOp it p with
  | error e =>
    simp only [hro] at h
    cases pol with
    | failP => simp at h
    | skipP =>
      simp only [Except.ok.injEq, Prod.mk.injEq] at h
      obtain ⟨h1, -⟩ := h
      subst h1
      refine ⟨⟨hkeys, ?_⟩, rfl, rfl⟩
      show st.mem - (ops.intentSize it + (p.length : Int)) =
        sumCache ops st.cache + sumIntents ops st.deferred + sumSeen st.seen
      omega
    | ignoreP =>
      simp only [Except.ok.injEq, Prod.mk.injEq] at h
      obtain ⟨h1, -⟩ := h
      subst h1
      refine ⟨⟨hkeys, ?_⟩, rfl, rfl⟩
      show st.mem - (ops.intentSize it + (p.length : Int)) =
        sumCache ops st.cache + sumIntents ops st.deferred + sumSeen st.seen
      omega
  | ok upd =>
    simp only [hro] at h
    cases upd with
    | none =>
      simp only [Except.ok.injEq, Prod.mk.injEq] at h
      obtain ⟨h1, -⟩ := h
      subst h1
      refine ⟨⟨hkeys, ?_⟩, rfl, rfl⟩
      show st.mem - (ops.intentSize it + (p.length : Int)) =
        sumCache ops st.cache + sumIntents ops st.deferred + sumSeen st.seen
      omega
    | some u =>
      cases hlk : lookupA st.cache p with
      | none =>
        simp only [hlk] at h
        simp only [Except.ok.injEq, Prod.mk.injEq] at h
        obtain ⟨h1, -⟩ := h
        subst h1
        have hsum : sumCache ops (setKey st.cache p u) =
            sumCache ops st.cache + (ops.srcSize u + (p.length : Int)) :=
          sumBy_setKey_absent _ _ _ _ hlk
        refine ⟨⟨⟨hkeys.1, setKey_nodup _ _ _ hkeys.2⟩, ?_⟩, rfl, rfl⟩
        show st.mem - (ops.intentSize it + (p.length : Int)) - 0
            + (ops.srcSize u + (p.length : Int)) =
          sumCache ops (setKey st.cache p u) + sumIntents ops st.deferred + sumSeen st.seen
        rw [hsum]
        omega
      | some old =>
        simp only [hlk] at h
        simp only [Except.ok.injEq, Prod.mk.injEq] at h
        obtain ⟨h1, -⟩ := h
        subst h1
        have hsum : sumCache ops (setKey st.cache p u) =
            sumCache ops st.cache - (ops.srcSize old + (p.length : Int))
              + (ops.srcSize u + (p.length : Int)) :=
          sumBy_setKey_present _ _ _ _ _ hlk
        refine ⟨⟨⟨hkeys.1, setKey_nodup _ _ _ hkeys.2⟩, ?_⟩, rfl, rfl⟩
        show st.mem - (ops.intentSize it + (p.length : Int))
            - (ops.srcSize old + (p.length : Int))
            + (ops.srcSize u + (p.length : Int)) =
          sumCache ops (setKey st.cache p u) + sumIntents ops st.deferred + sumSeen st.seen
        rw [hsum]
        omega

theorem drainSeen_WF {Src Intent : Type} (ops : DeferredOps Src Intent)
    (pol : ErrPolicy) (term : Bool) (maxSeen : Nat) (maxMem : Int) :
    ∀ (ns nd : Nat) (st : EngineState Src Intent) (done : List Path)
      (st2 : EngineState Src Intent) (done2 : List Path) (nd2 : Nat) (ran : List Path),
      WF ops st →
      drainSeen ops pol term maxSeen maxMem ns nd st done = .ok (st2, done2, nd2, ran) →
      WF ops st2 ∧ ∃ m, st2.seen = st.seen.drop m := by
  intro ns
  induction ns with
  | zero =>
    intro nd st done st2 done2 nd2 ran hwf h
    simp only [drainSeen, Except.ok.injEq, Prod.mk.injEq] at h
    obtain ⟨h1, -⟩ := h
    subst h1
    exact ⟨hwf, 0, rfl⟩
  | succ ns ih =>
    intro nd st done st2 done2 nd2 ran hwf h
    rw [drainSeen] at h
    split at h
    · cases hs : st.seen with
      | nil => rw [hs] at h; simp at h
      | cons e seenRest =>
        obtain ⟨k, c⟩ := e
        simp only [hs] at h
        have hacc : st.mem = sumCache ops st.cache + sumIntents ops st.deferred
            + ((k.length : Int) + sumSeen seenRest) := by
          have := hwf.2
          rw [Accounted, hs] at this
          simpa [sumSeen, sumBy_cons] using this
        cases hpk : popKey st.deferred k with
        | none =>
          simp only [hpk] at h
          have hwf1 : WF ops
              (⟨st.mem - (k.length : Int), seenRest, st.deferred, st.cache⟩ :
                EngineState Src Intent) := by
            refine ⟨hwf.1, ?_⟩
            show st.mem - (k.length : Int) =
              sumCache ops st.cache + sumIntents ops st.deferred + sumSeen seenRest
            omega
          obtain ⟨hwf2, m, hm⟩ := ih nd _ done st2 done2 nd2 ran hwf1 h
          refine ⟨hwf2, m + 1, ?_⟩
          simp only [hs, List.drop_succ_cons]
          simpa using hm
        | some p =>
          obtain ⟨it, defRest⟩ := p
          simp only [hpk] at h
          obtain ⟨hnd2, hlk2⟩ := popKey_nodup_rest st.deferred k hwf.1.1 it defRest hpk
          have hsumI : sumIntents ops defRest =
              sumIntents ops st.deferred - (ops.intentSize it + (k.length : Int)) :=
            sumBy_popKey _ _ _ _ _ hpk
          cases hci : completeIntent ops pol term k it
              (⟨st.mem - (k.length : Int), seenRest, defRest, st.cache⟩ :
                EngineState Src Intent) done with
          | error e => simp only [hci] at h; exact absurd h (by simp)
          | ok r =>
            obtain ⟨st3, done3⟩ := r
            simp only [hci] at h
            obtain ⟨hwf3, hseen3, hdef3⟩ :=
              completeIntent_WF ops pol term k it
                (⟨st.mem - (k.length : Int), seenRest, defRest, st.cache⟩ :
                  EngineState Src Intent) st3 done done3
                ⟨hnd2, hwf.1.2⟩
                (by
                  show st.mem - (k.length : Int) = sumCache ops st.cache
                    + sumIntents ops defRest + sumSeen seenRest
                    + (ops.intentSize it + (k.length : Int))
                  omega)
                hci
            cases hrec : drainSeen ops pol term maxSeen maxMem ns (nd - 1) st3 done3 with
            | error e => simp only [hrec] at h; exact absurd h (by simp)
            | ok r2 =>
              obtain ⟨st4, done4, nd4, ran4⟩ := r2
              simp only [hrec, Except.ok.injEq, Prod.mk.injEq] at h
              obtain ⟨h1, -⟩ := h
              subst h1
              obtain ⟨hwf4, m, hm⟩ := ih (nd - 1) st3 done3 st4 done4 nd4 ran4 hwf3 hrec
              refine ⟨hwf4, m + 1, ?_⟩
              simp only [hs, List.drop_succ_cons]
              rw [hm, hseen3]
    · simp only [Except.ok.injEq, Prod.mk.injEq] at h
      obtain ⟨h1, -⟩ := h
      subst h1
      exact ⟨hwf, 0, rfl⟩

theorem drainIntents_WF {Src Intent : Type} (ops : DeferredOps Src Intent)
    (pol : ErrPolicy) (term : Bool) (maxDef : Nat) (maxMem : Int) :
    ∀ (nd : Nat) (st : EngineState Src Intent) (done : List Path)
      (st2 : EngineState Src Intent) (done2 : List Path) (ran : List Path),
      WF ops st →
      drainIntents ops pol term maxDef maxMem nd st done = .ok (st2, done2, ran) →
      WF ops st2 ∧ st2.seen = st.seen := by
  intro nd
  induction nd with
  | zero =>
    intro st done st2 done2 ran hwf h
    simp only [drainIntents, Except.ok.injEq, Prod.mk.injEq] at h
    obtain ⟨h1, -⟩ := h
    subst h1
    exact ⟨hwf, rfl⟩
  | succ nd ih =>
    intro st done st2 done2 ran hwf h
    rw [drainIntents] at h
    split at h
    · cases hdf : st.deferred with
      | nil => simp only [hdf, popFront] at h; exact absurd h (by simp)
      | cons e defRest =>
        obtain ⟨p, it⟩ := e
        simp only [hdf, popFront] at h
        have hacc : st.mem = sumCache ops st.cache
            + ((ops.intentSize it + (p.length : Int)) + sumIntents ops defRest)
            + sumSeen st.seen := by
          have := hwf.2
          rw [Accounted, hdf] at this
          simpa [sumIntents, sumBy_cons] using this
        have hnd2 : (defRest.map Prod.fst).Nodup := by
          have := hwf.1.1
          rw [hdf, List.map_cons, List.nodup_cons] at this
          exact this.2
        cases hci : completeIntent ops pol term p it
            (⟨st.mem, st.seen, defRest, st.cache⟩ : EngineState Src Intent) done with
        | error e => simp only [hci] at h; exact absurd h (by simp)
        | ok r =>
          obtain ⟨st3, done3⟩ := r
          simp only [hci] at h
          obtain ⟨hwf3, hseen3, -⟩ :=
            completeIntent_WF ops pol term p it
              (⟨st.mem, st.seen, defRest, st.cache⟩ : EngineState Src Intent)
              st3 done done3
              ⟨hnd2, hwf.1.2⟩
              (by
                show st.mem = sumCache ops st.cache + sumIntents ops defRest
                  + sumSeen st.seen + (ops.intentSize it + (p.length : Int))
                omega)
              hci
          cases hrec : drainIntents ops pol term maxDef maxMem nd st3 done3 with
          | error e => simp only [hrec] at h; exact absurd h (by simp)
          | ok r2 =>
            obtain ⟨st4, done4, ran4⟩ := r2
            simp only [hrec, Except.ok.injEq, Prod.mk.injEq] at h
            obtain ⟨h1, -⟩ := h
            subst h1
            obtain ⟨hwf4, hseen4⟩ := ih st3 done3 st4 done4 ran4 hwf3 hrec
            exact ⟨hwf4, by rw [hseen4, hseen3]⟩

    · simp only [Except.ok.injEq, Prod.mk.injEq] at h
      obtain ⟨h1, -⟩ := h
      subst h1
      exact ⟨hwf, rfl⟩

theorem drainCache_WF {Src Intent : Type} (ops : DeferredOps Src Intent)
    (maxCached : Nat) (maxMem : Int) :
    ∀ (nc : Nat) (st st2 : EngineState Src Intent),
      WF ops st →
      drainCache ops maxCached maxMem nc st = .ok st2 →
      WF ops st2 ∧ st2.seen = st.seen := by
  intro nc
  induction nc with
  | zero =>
    intro st st2 hwf h
    simp only [drainCache, Except.ok.injEq] at h
    subst h
    exact ⟨hwf, rfl⟩
  | succ nc ih =>
    intro st st2 hwf h
    rw [drainCache] at h
    split at h
    · cases hcc : st.cache with
      | nil => simp only [hcc, popFront] at h; exact absurd h (by simp)
      | cons e cacheRest =>
        obtain ⟨p, s⟩ := e
        simp only [hcc, popFront] at h
        have hacc : st.mem = ((ops.srcSize s + (p.length : Int)) + sumCache ops cacheRest)
            + sumIntents ops st.deferred + sumSeen st.seen := by
          have := hwf.2
          rw [Accounted, hcc] at this
          simpa [sumCache, sumBy_cons] using this
        have hnd2 : (cacheRest.map Prod.fst).Nodup := by
          have := hwf.1.2
          rw [hcc, List.map_cons, List.nodup_cons] at this
          exact this.2
        have hwf1 : WF ops
            (⟨st.mem - (ops.srcSize s + (p.length : Int)), st.seen, st.deferred,
              cacheRest⟩ : EngineState Src Intent) := by
          refine ⟨⟨hwf.1.1, hnd2⟩, ?_⟩
          show st.mem - (ops.srcSize s + (p.length : Int)) =
            sumCache ops cacheRest + sumIntents ops st.deferred + sumSeen st.seen
          omega
        obtain ⟨hwf2, hseen2⟩ := ih _ st2 hwf1 h
        exact ⟨hwf2, hseen2⟩
    · simp only [Except.ok.injEq] at h
      subst h
      exact ⟨hwf, rfl⟩

theorem flushUpdates_WF {Src Intent : Type} (ops : DeferredOps Src Intent)
    (cargs : Cargs) (final : Bool) (st st2 : EngineState Src Intent) (tr : List Ev)
    (hwf : WF ops st)
    (h : flushUpdates ops cargs final st = .ok (st2, tr)) :
    WF ops st2 ∧ ∃ m, st2.seen = st.seen.drop m := by
  simp only [flushUpdates] at h
  generalize (if final = true then (0 : Nat) else cargs.max_deferred) = maxDef at h
  generalize (if final = true then (0 : Int) else cargs.max_memory_bytes) = maxMem at h
  split at h
  · simp only [Except.ok.injEq, Prod.mk.injEq] at h
    obtain ⟨h1, -⟩ := h
    subst h1
    exact ⟨hwf, 0, rfl⟩
  · cases hds : drainSeen ops cargs.errors cargs.terminator cargs.max_seen maxMem
        st.seen.length st.deferred.length st [] with
    | error e => rw [hds] at h; exact absurd h (by simp)
    | ok r1 =>
      obtain ⟨st1, done1, nd1, ran1⟩ := r1
      simp only [hds] at h
      obtain ⟨hwf1, m1, hm1⟩ := drainSeen_WF ops cargs.errors cargs.terminator
        cargs.max_seen maxMem _ _ st [] st1 done1 nd1 ran1 hwf hds
      cases hdi : drainIntents ops cargs.errors cargs.terminator
          (if ¬final = true ∧ nd1 ≤ maxDef + cargs.max_batched ∧ st1.mem ≤ maxMem then
            maxDef + cargs.max_batched
          else maxDef) maxMem nd1 st1 done1 with
      | error e => simp only [hdi] at h; exact absurd h (by simp)
      | ok r2 =>
        obtain ⟨st2a, done2, ran2⟩ := r2
        simp only [hdi] at h
        obtain ⟨hwf2, hseen2⟩ := drainIntents_WF ops cargs.errors cargs.terminator
          _ maxMem nd1 st1 done1 st2a done2 ran2 hwf1 hdi
        cases hdc : drainCache ops cargs.max_cached maxMem st.cache.length st2a with
        | error e => simp only [hdc] at h; exact absurd h (by simp)
        | ok st3 =>
          simp only [hdc, Except.ok.injEq, Prod.mk.injEq] at h
          obtain ⟨h1, -⟩ := h
          subst h1
          obtain ⟨hwf3, hseen3⟩ := drainCache_WF ops cargs.max_cached maxMem
            _ st2a st3 hwf2 hdc
          exact ⟨hwf3, m1, by rw [hseen3, hseen2, hm1]⟩

theorem seenCount_WF {Src Intent : Type} (ops : DeferredOps Src Intent)
    (st : EngineState Src Intent) (og : Path) (hwf : WF ops st) :
    WF ops (⟨(SeenCounter.count ⟨st.mem, st.seen⟩ og).2.mem,
             (SeenCounter.count ⟨st.mem, st.seen⟩ og).2.state,
             st.deferred, st.cache⟩ : EngineState Src Intent) := by
  cases hlg : lookupA st.seen og with
  | none =>
    have hc : SeenCounter.count ⟨st.mem, st.seen⟩ og =
        (0, ⟨st.mem + (og.length : Int), st.seen ++ [(og, 0)]⟩) := by
      simp [SeenCounter.count, hlg]
    rw [hc]
    refine ⟨hwf.1, ?_⟩
    have hs : sumSeen (st.seen ++ [(og, 0)]) = sumSeen st.seen + (og.length : Int) := by
      rw [sumSeen, sumBy_append]
      simp [sumBy_cons, sumBy_nil, sumSeen]
    show st.mem + (og.length : Int) =
      sumCache ops st.cache + sumIntents ops st.deferred + sumSeen (st.seen ++ [(og, 0)])
    have hacc := hwf.2
    rw [Accounted] at hacc
    omega
  | some c =>
    have hc : SeenCounter.count ⟨st.mem, st.seen⟩ og =
        (c + 1, ⟨st.mem, setKey st.seen og (c + 1)⟩) := by
      simp [SeenCounter.count, hlg]
    rw [hc]
    refine ⟨hwf.1, ?_⟩
    have hs : sumSeen (setKey st.seen og (c + 1)) = sumSeen st.seen := by
      rw [sumSeen, sumBy_setKey_present _ _ _ _ _ hlg]
      simp [sumSeen]
    show st.mem =
      sumCache ops st.cache + sumIntents ops st.deferred + sumSeen (setKey st.seen og (c + 1))
    have hacc := hwf.2
    rw [Accounted] at hacc
    omega

theorem popCache_WF {Src Intent : Type} (ops : DeferredOps Src Intent)
    (st : EngineState Src Intent) (ab : Path) (o : Src) (rest : List (Path × Src))
    (hwf : WF ops st) (h : popKey st.cache ab = some (o, rest)) :
    WF ops (⟨st.mem - (ops.srcSize o + (ab.length : Int)), st.seen, st.deferred, rest⟩ :
      EngineState Src Intent) ∧ lookupA rest ab = none := by
  obtain ⟨hnd, hlk⟩ := popKey_nodup_rest st.cache ab hwf.1.2 o rest h
  have hsum : sumCache ops rest =
      sumCache ops st.cache - (ops.srcSize o + (ab.length : Int)) :=
    sumBy_popKey _ _ _ _ _ h
  refine ⟨⟨⟨hwf.1.1, hnd⟩, ?_⟩, hlk⟩
  show st.mem - (ops.srcSize o + (ab.length : Int)) =
    sumCache ops rest + sumIntents ops st.deferred + sumSeen st.seen
  have hacc := hwf.2
  rw [Accounted] at hacc
  omega

theorem popDefer_WF {Src Intent : Type} (ops : DeferredOps Src Intent)
    (st : EngineState Src Intent) (ab : Path) (it : Intent)
    (rest : List (Path × Intent))
    (hwf : WF ops st) (h : popKey st.deferred ab = some (it, rest)) :
    WF ops (⟨st.mem - (ops.intentSize it + (ab.length : Int)), st.seen, rest, st.cache⟩ :
      EngineState Src Intent) ∧ lookupA rest ab = none := by
  obtain ⟨hnd, hlk⟩ := popKey_nodup_rest st.deferred ab hwf.1.1 it rest h
  have hsum : sumIntents ops rest =
      sumIntents ops st.deferred - (ops.intentSize it + (ab.length : Int)) :=
    sumBy_popKey _ _ _ _ _ h
  refine ⟨⟨⟨hnd, hwf.1.2⟩, ?_⟩, hlk⟩
  show st.mem - (ops.intentSize it + (ab.length : Int)) =
    sumCache ops st.cache + sumIntents ops rest + sumSeen st.seen
  have hacc := hwf.2
  rw [Accounted] at hacc
  omega

theorem addIntent_WF {Src Intent : Type} (ops : DeferredOps Src Intent)
    (st : EngineState Src Intent) (ab : Path) (i : Intent)
    (hwf : WF ops st) (habs : lookupA st.deferred ab = none) :
    WF ops (⟨st.mem + (ops.intentSize i + (ab.length : Int)), st.seen,
             setKey st.deferred ab i, st.cache⟩ : EngineState Src Intent) := by
  have hsum : sumIntents ops (setKey st.deferred ab i) =
      sumIntents ops st.deferred + (ops.intentSize i + (ab.length : Int)) :=
    sumBy_setKey_absent _ _ _ _ habs
  refine ⟨⟨setKey_nodup _ _ _ hwf.1.1, hwf.1.2⟩, ?_⟩
  show st.mem + (ops.intentSize i + (ab.length : Int)) =
    sumCache ops st.cache + sumIntents ops (setKey st.deferred ab i) + sumSeen st.seen
  have hacc := hwf.2
  rw [Accounted] at hacc
  omega

theorem addCache_WF {Src Intent : Type} (ops : DeferredOps Src Intent)
    (st : EngineState Src Intent) (ab : Path) (u : Src)
    (hwf : WF ops st) (habs : lookupA st.cache ab = none) :
    WF ops (⟨st.mem + (ops.srcSize u + (ab.length : Int)), st.seen,
             st.deferred, setKey st.cache ab u⟩ : EngineState Src Intent) := by
  have hsum : sumCache ops (setKey st.cache ab u) =
      sumCache ops st.cache + (ops.srcSize u + (ab.length : Int)) :=
    sumBy_setKey_absent _ _ _ _ habs
  refine ⟨⟨hwf.1.1, setKey_nodup _ _ _ hwf.1.2⟩, ?_⟩
  show st.mem + (ops.srcSize u + (ab.length : Int)) =
    sumCache ops (setKey st.cache ab u) + sumIntents ops st.deferred + sumSeen st.seen
  have hacc := hwf.2
  rw [Accounted] at hacc
  omega

theorem emitStep_WF {Src Intent : Type} (ops : DeferredOps Src Intent)
    (relOf : Nat → Path) (absOf : Path → Path) (baseKey : Path) (new_source : Src)
    (st : EngineState Src Intent) (intent : Option Intent) (perm : Bool)
    (rel ab : Path) (st6 : EngineState Src Intent)
    (hwf : WF ops st)
    (h : emitStep ops relOf absOf baseKey new_source st =
      .ok (intent, perm, rel, ab, st6)) :
    WF ops st6 := by
  simp only [emitStep] at h
  have hwfA := seenCount_WF ops st baseKey hwf
  generalize hcnt : SeenCounter.count ⟨st.mem, st.seen⟩ baseKey = cv at h hwfA
  obtain ⟨n1, sc1⟩ := cv
  cases hpc : popKey st.cache (absOf (relOf n1)) with
  | none =>
    simp only [hpc] at h
    have hcNone : lookupA st.cache (absOf (relOf n1)) = none :=
      popKey_none_lookupA _ _ hpc
    cases hpd : popKey st.deferred (absOf (relOf n1)) with
    | none =>
      simp only [hpd] at h
      have hdNone : lookupA st.deferred (absOf (relOf n1)) = none :=
        popKey_none_lookupA _ _ hpd
      cases hdo : ops.deferOp (absOf (relOf n1)) none new_source with
      | error e => simp only [hdo] at h; exact absurd h (by simp)
      | ok r =>
        obtain ⟨io, uo, pm⟩ := r
        simp only [hdo] at h
        cases io with
        | none =>
          cases uo with
          | none =>
            simp only [Except.ok.injEq, Prod.mk.injEq] at h
            obtain ⟨-, -, -, -, h5⟩ := h
            subst h5
            exact hwfA
          | some u =>
            simp only [Except.ok.injEq, Prod.mk.injEq] at h
            obtain ⟨-, -, -, -, h5⟩ := h
            subst h5
            exact addCache_WF ops _ _ u hwfA hcNone
        | some i =>
          cases uo with
          | none =>
            simp only [Except.ok.injEq, Prod.mk.injEq] at h
            obtain ⟨-, -, -, -, h5⟩ := h
            subst h5
            exact addIntent_WF ops _ _ i hwfA hdNone
          | some u =>
            simp only [Except.ok.injEq, Prod.mk.injEq] at h
            obtain ⟨-, -, -, -, h5⟩ := h
            subst h5
            exact addCache_WF ops _ _ u (addIntent_WF ops _ _ i hwfA hdNone) hcNone
    | some pd =>
      obtain ⟨it2, defRest⟩ := pd
      simp only [hpd] at h
      obtain ⟨hwfC, hdNone⟩ := popDefer_WF ops
        (⟨sc1.mem, sc1.state, st.deferred, st.cache⟩ : EngineState Src Intent)
        (absOf (relOf n1)) it2 defRest hwfA hpd
      cases hup : ops.updateOp it2 new_source with
      | error e => simp only [hup] at h; exact absurd h (by simp)
      | ok r =>
        obtain ⟨it3, u3, pm⟩ := r
        simp only [hup, Except.ok.injEq, Prod.mk.injEq] at h
        obtain ⟨-, -, -, -, h5⟩ := h
        subst h5
        exact addCache_WF ops _ _ u3 (addIntent_WF ops _ _ it3 hwfC hdNone) hcNone
  | some pc =>
    obtain ⟨o, cacheRest⟩ := pc
    simp only [hpc] at h
    obtain ⟨hwfB, hcNone⟩ := popCache_WF ops
      (⟨sc1.mem, sc1.state, st.deferred, st.cache⟩ : EngineState Src Intent)
      (absOf (relOf n1)) o cacheRest hwfA hpc
    cases hpd : popKey st.deferred (absOf (relOf n1)) with
    | none =>
      simp only [hpd] at h
      have hdNone : lookupA st.deferred (absOf (relOf n1)) = none :=
        popKey_none_lookupA _ _ hpd
      cases hdo : ops.deferOp (absOf (relOf n1)) (some o) new_source with
      | error e => simp only [hdo] at h; exact absurd h (by simp)
      | ok r =>
        obtain ⟨io, uo, pm⟩ := r
        simp only [hdo] at h
        cases io with
        | none =>
          cases uo with
          | none =>
            simp only [Except.ok.injEq, Prod.mk.injEq] at h
            obtain ⟨-, -, -, -, h5⟩ := h
            subst h5
            exact hwfB
          | some u =>
            simp only [Except.ok.injEq, Prod.mk.injEq] at h
            obtain ⟨-, -, -, -, h5⟩ := h
            subst h5
            exact addCache_WF ops _ _ u hwfB hcNone
        | some i =>
          cases uo with
          | none =>
            simp only [Except.ok.injEq, Prod.mk.injEq] at h
            obtain ⟨-, -, -, -, h5⟩ := h
            subst h5
            exact addIntent_WF ops _ _ i hwfB hdNone
          | some u =>
            simp only [Except.ok.injEq, Prod.mk.injEq] at h
            obtain ⟨-, -, -, -, h5⟩ := h
            subst h5
            exact addCache_WF ops _ _ u (addIntent_WF ops _ _ i hwfB hdNone) hcNone
    | some pd =>
      obtain ⟨it2, defRest⟩ := pd
      simp only [hpd] at h
      obtain ⟨hwfC, hdNone⟩ := popDefer_WF ops
        (⟨sc1.mem - (ops.srcSize o + ((absOf (relOf n1)).length : Int)), sc1.state,
          st.deferred, cacheRest⟩ : EngineState Src Intent)
        (absOf (relOf n1)) it2 defRest hwfB hpd
      cases hup : ops.updateOp it2 new_source with
      | error e => simp only [hup] at h; exact absurd h (by simp)
      | ok r =>
        obtain ⟨it3, u3, pm⟩ := r
        simp only [hup, Except.ok.injEq, Prod.mk.injEq] at h
        obtain ⟨-, -, -, -, h5⟩ := h
        subst h5
        exact addCache_WF ops _ _ u3 (addIntent_WF ops _ _ it3 hwfC hdNone) hcNone

theorem emitLoop_WF {Src Intent : Type} (ops : DeferredOps Src Intent)
    (relOf : Nat → Path) (absOf : Path → Path) (baseKey : Path) (new_source : Src) :
    ∀ (fuel : Nat) (prev : Option Path) (st st2 : EngineState Src Intent)
      (io : Option Intent) (ab : Path),
      WF ops st →
      emitLoop ops relOf absOf baseKey new_source fuel prev st = .ok (st2, io, ab) →
      WF ops st2 := by
  intro fuel
  induction fuel with
  | zero =>
    intro prev st st2 io ab hwf h
    simp [emitLoop] at h
  | succ fuel ih =>
    intro prev st st2 io ab hwf h
    rw [emitLoop] at h
    cases hstep : emitStep ops relOf absOf baseKey new_source st with
    | error e => simp only [hstep] at h; exact absurd h (by simp)
    | ok r =>
      obtain ⟨i2, pm, rel2, ab2, st6⟩ := r
      simp only [hstep] at h
      have hwf6 := emitStep_WF ops relOf absOf baseKey new_source st i2 pm rel2 ab2 st6
        hwf hstep
      cases pm with
      | true =>
        rw [if_pos rfl] at h
        simp only [Except.ok.injEq, Prod.mk.injEq] at h
        obtain ⟨h1, -⟩ := h
        subst h1
        exact hwf6
      | false =>
        rw [if_neg (by simp)] at h
        split at h
        · exact absurd h (by simp)
        · exact ih (some rel2) st6 st2 io ab hwf6 h

theorem emit_WF {Src Intent : Type} (ops : DeferredOps Src Intent) (cargs : Cargs)
    (relOf : Nat → Path) (absOf : Path → Path) (new_source : Src) (fuel : Nat)
    (st st2 : EngineState Src Intent) (tr : List Ev)
    (hwf : WF ops st)
    (h : emit ops cargs relOf absOf new_source fuel st = .ok (st2, tr)) :
    WF ops st2 := by
  simp only [emit] at h
  cases hloop : emitLoop ops relOf absOf (relOf 0) new_source fuel none st with
  | error e => simp only [hloop] at h; exact absurd h (by simp)
  | ok r =>
    obtain ⟨st1, io, ab⟩ := r
    simp only [hloop] at h
    have hwf1 := emitLoop_WF ops relOf absOf (relOf 0) new_source fuel none st st1 io ab
      hwf hloop
    split at h
    · simp only [Except.ok.injEq, Prod.mk.injEq] at h
      obtain ⟨h1, -⟩ := h
      subst h1
      exact hwf1
    · cases hfl : flushUpdates ops cargs false st1 with
      | error e => simp only [hfl] at h; exact absurd h (by simp)
      | ok r2 =>
        obtain ⟨st2a, ev⟩ := r2
        simp only [hfl, Except.ok.injEq, Prod.mk.injEq] at h
        obtain ⟨h1, -⟩ := h
        subst h1
        exact (flushUpdates_WF ops cargs false st1 st2a ev hwf1 hfl).1

/-- The memory-account formula in the spec's words: the sum of `approx_size()`
of every cached SourceInfo, plus `approx_size()` of every queued Intent,
plus the length of every seen-counter key — with no key-length term for
the cache and intent entries. -/
def specConsumption {Src Intent : Type} (ops : DeferredOps Src Intent)
    (st : EngineState Src Intent) : Int :=
  sumBy (fun e => ops.srcSize e.2) st.cache
    + sumBy (fun e => ops.intentSize e.2) st.deferred
    + sumSeen st.seen

/-- The organize action family packaged as the engine's `DeferredOps`
(over a file system snapshot; `runOp` abstracts the on-disk effect). -/
def organizeOps (cfg : Config) (fs : FS) : DeferredOps OrganizeSource OrganizeIntent where
  srcSize := fun s => s.approx_size
  intentSize := fun i => i.approx_size
  deferOp := fun p o n => defer cfg fs p o n
  updateOp := fun it n => update_from cfg fs it n
  runOp := fun it p =>
    match runIntent cfg (fun _ => 0) fs it p ⟨[], [], []⟩ false with
    | .ok (_, _, u) => .ok u
    | .error _ => .error ()

/-- C1 counterexample. One `emit` of a fresh record through the copy
action leaves `consumption = 330`, while the claim's formula (plain
`approx_size()` sums plus seen key lengths, with no key-length term for
cache and intent entries) gives `314`: the code charges
`approx_size() + len(abs_out_path)` for every cache and intent entry. -/
theorem memory_claim_counterexample :
    emit (organizeOps ⟨Action.copy, false⟩ []) ⟨0, 0, 0, 0, 0, true, .failP, true⟩
        (fun _ => "/d/x.wrr") (fun p => p) ⟨"/in/a.wrr", ⟨1, 2⟩, some 5⟩ 1
        ⟨0, [], [], []⟩ =
      .ok (⟨330, [("/d/x.wrr", 0)],
            [("/d/x.wrr", ⟨⟨"/in/a.wrr", ⟨1, 2⟩, some 5⟩, false⟩)],
            [("/d/x.wrr", ⟨"/in/a.wrr", ⟨1, 2⟩, some 5⟩)]⟩, []) ∧
    specConsumption (organizeOps ⟨Action.copy, false⟩ [])
        ⟨330, [("/d/x.wrr", 0)],
          [("/d/x.wrr", ⟨⟨"/in/a.wrr", ⟨1, 2⟩, some 5⟩, false⟩)],
          [("/d/x.wrr", ⟨"/in/a.wrr", ⟨1, 2⟩, some 5⟩)]⟩ = 314 ∧
    (330 : Int) ≠ 314 := by
  refine ⟨by rfl, by rfl, by decide⟩

/-- C1 as amended: for well-formed engine states (the memory equation
holds and every dictionary holds each key once, which the Python
`OrderedDict`s guarantee by construction), the equation
`mem.consumption = total (approx_size() + len(key)) of cached sources +
total (approx_size() + len(key)) of queued intents + total seen-counter
key length` is preserved by every completed `flush_updates` call and by
every completed `emit` call. -/
theorem memory_accounting_invariant {Src Intent : Type} (ops : DeferredOps Src Intent)
    (cargs : Cargs) :
    (∀ (final : Bool) (st st2 : EngineState Src Intent) (tr : List Ev),
      WF ops st → flushUpdates ops cargs final st = .ok (st2, tr) →
      st2.mem = sumCache ops st2.cache + sumIntents ops st2.deferred + sumSeen st2.seen)
    ∧ (∀ (relOf : Nat → Path) (absOf : Path → Path) (new_source : Src) (fuel : Nat)
        (st st2 : EngineState Src Intent) (tr : List Ev),
      WF ops st → emit ops cargs relOf absOf new_source fuel st = .ok (st2, tr) →
      st2.mem = sumCache ops st2.cache + sumIntents ops st2.deferred + sumSeen st2.seen) := by
  constructor
  · intro final st st2 tr hwf h
    exact (flushUpdates_WF ops cargs final st st2 tr hwf h).1.2
  · intro relOf absOf new_source fuel st st2 tr hwf h
    exact (emit_WF ops cargs relOf absOf new_source fuel st st2 tr hwf h).2

/-- A trivial one-size `DeferredOps` instantiation over unit sources and
intents, used to evaluate the engine on concrete states. -/
def unitOps : DeferredOps Unit Unit :=
  ⟨fun _ => 1, fun _ => 1, fun _ _ _ => .ok (none, none, true),
   fun it _ => .ok (it, (), true), fun _ _ => .ok none⟩

/-- Witness for the C1 theorem: a concrete final flush that drains a
one-entry source cache restores the accounting equation on the drained
state. -/
theorem memory_accounting_invariant_witness :
    (EngineState.mem (⟨0, [], [], []⟩ : EngineState Unit Unit)) =
      sumCache unitOps (EngineState.cache (⟨0, [], [], []⟩ : EngineState Unit Unit))
        + sumIntents unitOps (EngineState.deferred (⟨0, [], [], []⟩ : EngineState Unit Unit))
        + sumSeen (EngineState.seen (⟨0, [], [], []⟩ : EngineState Unit Unit)) :=
  (memory_accounting_invariant unitOps
      ⟨0, 0, 0, 0, 0, true, .failP, false⟩).1 true
    ⟨7, [], [], [("/c.wrr", ())]⟩ ⟨0, [], [], []⟩
    [Ev.syncLog, Ev.reportFsync, Ev.finishCleanups]
    ⟨⟨List.nodup_nil, by decide⟩, by unfold Accounted; decide⟩ (by rfl)

/-- C8. Final flush drains everything: whenever `finish_updates`
(`flush_updates(final=True)` followed by the `assert consumption == 0`)
returns normally from a well-formed state whose sizes are positive (the
organize sizes are at least 128 and engine seen keys are nonempty
formatted paths), the deferred-intent queue, the source cache and the
seen counter are all empty and the memory account is zero — for every
budget configuration. -/
theorem final_flush_drains_all {Src Intent : Type} (ops : DeferredOps Src Intent)
    (cargs : Cargs) (st st2 : EngineState Src Intent) (tr : List Ev)
    (hwf : WF ops st)
    (hsrc : ∀ s : Src, 1 ≤ ops.srcSize s)
    (hint : ∀ i : Intent, 1 ≤ ops.intentSize i)
    (hseen : ∀ e ∈ st.seen, 0 < e.1.length)
    (hok : finishUpdates ops cargs st = .ok (st2, tr)) :
    st2.deferred = [] ∧ st2.cache = [] ∧ st2.seen = [] ∧ st2.mem = 0 := by
  simp only [finishUpdates] at hok
  cases hf : flushUpdates ops cargs true st with
  | error e => simp only [hf] at hok; exact absurd hok (by simp)
  | ok r =>
    obtain ⟨st1, ev⟩ := r
    simp only [hf] at hok
    split at hok
    · rename_i hmem0
      simp only [Except.ok.injEq, Prod.mk.injEq] at hok
      obtain ⟨h1, -⟩ := hok
      subst h1
      obtain ⟨hwf1, m, hm⟩ := flushUpdates_WF ops cargs true st st1 ev hwf hf
      have hc : ((st1.cache.length : Int)) ≤ sumCache ops st1.cache := by
        refine sumBy_ge_length _ _ (fun e he => ?_)
        have h1 := hsrc e.2
        have h2 : (0 : Int) ≤ (e.1.length : Int) := Int.ofNat_nonneg _
        omega
      have hd : ((st1.deferred.length : Int)) ≤ sumIntents ops st1.deferred := by
        refine sumBy_ge_length _ _ (fun e he => ?_)
        have h1 := hint e.2
        have h2 : (0 : Int) ≤ (e.1.length : Int) := Int.ofNat_nonneg _
        omega
      have hs : ((st1.seen.length : Int)) ≤ sumSeen st1.seen := by
        refine sumBy_ge_length _ _ (fun e he => ?_)
        have hmem : e ∈ st.seen := by
          rw [hm] at he
          exact List.mem_of_mem_drop he
        have h1 := hseen e hmem
        omega
      have hacc := hwf1.2
      rw [Accounted] at hacc
      have hl1 : st1.cache.length = 0 := by omega
      have hl2 : st1.deferred.length = 0 := by omega
      have hl3 : st1.seen.length = 0 := by omega
      exact ⟨List.eq_nil_of_length_eq_zero hl2, List.eq_nil_of_length_eq_zero hl1,
        List.eq_nil_of_length_eq_zero hl3, hmem0⟩
    · exact absurd hok (by simp)

/-- Witness for the C8 theorem: a concrete final flush over one cached
source; everything drains and the account reaches zero. -/
theorem final_flush_drains_all_witness :
    (EngineState.deferred (⟨0, [], [], []⟩ : EngineState Unit Unit)) = [] ∧
    (EngineState.cache (⟨0, [], [], []⟩ : EngineState Unit Unit)) = [] ∧
    (EngineState.seen (⟨0, [], [], []⟩ : EngineState Unit Unit)) = [] ∧
    (EngineState.mem (⟨0, [], [], []⟩ : EngineState Unit Unit)) = 0 :=
  final_flush_drains_all unitOps
    ⟨2, 2, 2, 2, 100, true, .failP, false⟩
    ⟨7, [], [], [("/c.wrr", ())]⟩ ⟨0, [], [], []⟩
    [Ev.syncLog, Ev.reportFsync, Ev.finishCleanups]
    ⟨⟨List.nodup_nil, by decide⟩, by unfold Accounted; decide⟩
    (fun _ => le_refl 1) (fun _ => le_refl 1) (by intro e he; cases he) (by rfl)

theorem emitStep_notPermitted {Src Intent : Type} (ops : DeferredOps Src Intent)
    (relOf : Nat → Path) (absOf : Path → Path) (baseKey : Path) (new_source : Src)
    (hconst : ∀ n, relOf n = relOf 0)
    (hdefer : ∀ p o, ∃ i u, ops.deferOp p o new_source = .ok (i, u, false))
    (hupdate : ∀ it, ∃ i u, ops.updateOp it new_source = .ok (i, u, false)) :
    ∀ st : EngineState Src Intent, ∃ it st6,
      emitStep ops relOf absOf baseKey new_source st =
        .ok (it, false, relOf 0, absOf (relOf 0), st6) := by
  intro st
  unfold emitStep
  simp only [hconst]
  cases hpc : popKey
      (EngineState.cache
        { st with mem := (SeenCounter.count ⟨st.mem, st.seen⟩ baseKey).2.mem,
                  seen := (SeenCounter.count ⟨st.mem, st.seen⟩ baseKey).2.state })
      (absOf (relOf 0)) with
  | none =>
    simp only [hpc]
    cases hpd : popKey
        (EngineState.deferred
          { st with mem := (SeenCounter.count ⟨st.mem, st.seen⟩ baseKey).2.mem,
                    seen := (SeenCounter.count ⟨st.mem, st.seen⟩ baseKey).2.state })
        (absOf (relOf 0)) with
    | none =>
      obtain ⟨i, u, hd⟩ := hdefer (absOf (relOf 0)) none
      simp only [hpd, hd]
      exact ⟨i, _, rfl⟩
    | some p =>
      obtain ⟨it, defRest⟩ := p
      obtain ⟨i, u, hu⟩ := hupdate it
      simp only [hpd, hu]
      exact ⟨some i, _, rfl⟩
  | some p =>
    obtain ⟨o, cacheRest⟩ := p
    simp only [hpc]
    cases hpd : popKey
        (EngineState.deferred
          { st with mem := (SeenCounter.count ⟨st.mem, st.seen⟩ baseKey).2.mem
                      - (ops.srcSize o + (absOf (relOf 0)).length),
                    seen := (SeenCounter.count ⟨st.mem, st.seen⟩ baseKey).2.state,
                    cache := cacheRest })
        (absOf (relOf 0)) with
    | none =>
      obtain ⟨i, u, hd⟩ := hdefer (absOf (relOf 0)) (some o)
      simp only [hpd, hd]
      exact ⟨i, _, rfl⟩
    | some p2 =>
      obtain ⟨it, defRest⟩ := p2
      obtain ⟨i, u, hu⟩ := hupdate it
      simp only [hpd, hu]
      exact ⟨some i, _, rfl⟩

/-- C4. Template-variance detection: when the formatted destination does
not vary with `num` and the placement is never permitted, the emit retry
loop raises the fatal "destination already exists" `Failure` carrying the
variance hint, and does so within two iterations (any fuel of at least
two reaches the failure). -/
theorem emit_variance_detection {Src Intent : Type} (ops : DeferredOps Src Intent)
    (cargs : Cargs) (relOf : Nat → Path) (absOf : Path → Path) (new_source : Src)
    (hconst : ∀ n, relOf n = relOf 0)
    (hdefer : ∀ p o, ∃ i u, ops.deferOp p o new_source = .ok (i, u, false))
    (hupdate : ∀ it, ∃ i u, ops.updateOp it new_source = .ok (i, u, false)) :
    ∀ (fuel : Nat) (st : EngineState Src Intent),
      emit ops cargs relOf absOf new_source (fuel + 2) st =
        .error (.fatalFail ("destination already exists" ++ varianceHelpMsg)) := by
  intro fuel st
  obtain ⟨it1, st6, h1⟩ :=
    emitStep_notPermitted ops relOf absOf (relOf 0) new_source hconst hdefer hupdate st
  obtain ⟨it2, st7, h2⟩ :=
    emitStep_notPermitted ops relOf absOf (relOf 0) new_source hconst hdefer hupdate st6
  have hloop : emitLoop ops relOf absOf (relOf 0) new_source (fuel + 2) none st =
      .error (.fatalFail ("destination already exists" ++ varianceHelpMsg)) := by
    show emitLoop ops relOf absOf (relOf 0) new_source (Nat.succ (fuel + 1)) none st = _
    rw [emitLoop, h1]
    simp only [Bool.false_eq_true, if_false, reduceCtorEq, if_neg]
    show emitLoop ops relOf absOf (relOf 0) new_source (Nat.succ fuel) (some (relOf 0)) st6 = _
    rw [emitLoop, h2]
    simp
  simp only [emit, hloop]

/-- Witness for the C4 theorem: a concrete never-permitting `DeferredOps`
over unit sources and intents, a constant template, fuel two: `emit`
fails with the variance message. -/
theorem emit_variance_detection_witness :
    emit (⟨fun _ => 1, fun _ => 1, fun _ _ _ => .ok (none, none, false),
          fun _ _ => .ok ((), (), false), fun _ _ => .ok none⟩ :
            DeferredOps Unit Unit)
        ⟨0, 0, 0, 0, 0, true, .failP, true⟩
        (fun _ => "/dst/same.wrr") (fun p => p) () 2 ⟨0, [], [], []⟩ =
      .error (.fatalFail ("destination already exists" ++ varianceHelpMsg)) :=
  emit_variance_detection
    ⟨fun _ => 1, fun _ => 1, fun _ _ _ => .ok (none, none, false),
     fun _ _ => .ok ((), (), false), fun _ _ => .ok none⟩
    ⟨0, 0, 0, 0, 0, true, .failP, true⟩
    (fun _ => "/dst/same.wrr") (fun p => p) ()
    (fun _ => rfl) (fun _ _ => ⟨none, none, rfl⟩) (fun _ => ⟨(), (), rfl⟩) 0 ⟨0, [], [], []⟩

/-- C9. Report-after-durability ordering: in the event trace of any
successful `flush_updates` with reporting enabled, everything before the
deferred-sync `sync()` is intent execution; the destination paths are
written to the reporting channel strictly after `sync()`, the reporting
channel is fsynced after those writes, and the post-success cleanups
(`dsync.finish()`) run after that fsync. -/
theorem flush_report_after_sync {Src Intent : Type} (ops : DeferredOps Src Intent)
    (cargs : Cargs) (final : Bool) (st st2 : EngineState Src Intent) (tr : List Ev)
    (hterm : cargs.terminator = true)
    (hok : flushUpdates ops cargs final st = .ok (st2, tr)) :
    tr = [] ∨
    ∃ (pre : List Ev) (files : List Path), tr = pre ++ Ev.syncLog ::
        (files.map Ev.report ++ [Ev.reportFsync, Ev.finishCleanups]) ∧
      ∀ e ∈ pre, ∃ p, e = Ev.runIntent p := by
  simp only [flushUpdates] at hok
  generalize hmd : (if final = true then (0 : Nat) else cargs.max_deferred) = maxDef at hok
  generalize hmm : (if final = true then (0 : Int) else cargs.max_memory_bytes) = maxMem at hok
  split at hok
  · left
    simp only [Except.ok.injEq, Prod.mk.injEq] at hok
    exact hok.2.symm
  · right
    cases hds : drainSeen ops cargs.errors cargs.terminator cargs.max_seen maxMem
        st.seen.length st.deferred.length st [] with
    | error e => rw [hds] at hok; exact absurd hok (by simp)
    | ok r1 =>
      obtain ⟨st1, done1, nd1, ran1⟩ := r1
      simp only [hds] at hok
      cases hdi : drainIntents ops cargs.errors cargs.terminator
          (if ¬final = true ∧ nd1 ≤ maxDef + cargs.max_batched ∧ st1.mem ≤ maxMem then
            maxDef + cargs.max_batched
          else maxDef) maxMem nd1 st1 done1 with
      | error e => simp only [hdi] at hok; exact absurd hok (by simp)
      | ok r2 =>
        obtain ⟨st2a, done2, ran2⟩ := r2
        simp only [hdi] at hok
        cases hdc : drainCache ops cargs.max_cached maxMem st.cache.length st2a with
        | error e => simp only [hdc] at hok; exact absurd hok (by simp)
        | ok st3 =>
          simp only [hdc, Except.ok.injEq, Prod.mk.injEq] at hok
          refine ⟨(ran1 ++ ran2).map Ev.runIntent, done2, ?_, ?_⟩
          · rw [← hok.2]
            simp [hterm]
          · intro e he
            obtain ⟨p, -, hpe⟩ := List.mem_map.mp he
            exact ⟨p, hpe.symm⟩

/-- Witness for the C9 theorem: a single queued intent under zero
budgets; the trace is the intent execution, then `sync()`, then the
report and its fsync, then the cleanups. -/
theorem flush_report_after_sync_witness :
    ([Ev.runIntent "/d/a.wrr", Ev.syncLog, Ev.report "/d/a.wrr", Ev.reportFsync,
      Ev.finishCleanups] : List Ev) = [] ∨
    ∃ (pre : List Ev) (files : List Path),
      ([Ev.runIntent "/d/a.wrr", Ev.syncLog, Ev.report "/d/a.wrr", Ev.reportFsync,
        Ev.finishCleanups] : List Ev) = pre ++ Ev.syncLog ::
          (files.map Ev.report ++ [Ev.reportFsync, Ev.finishCleanups]) ∧
      ∀ e ∈ pre, ∃ p, e = Ev.runIntent p :=
  flush_report_after_sync
    (⟨fun _ => 1, fun _ => 1, fun _ _ _ => .ok (none, none, true),
      fun it _ => .ok (it, (), true), fun _ _ => .ok none⟩ : DeferredOps Unit Unit)
    ⟨0, 0, 0, 0, 0, true, .failP, false⟩ false
    ⟨9, [], [("/d/a.wrr", ())], []⟩ ⟨0, [], [], []⟩
    [Ev.runIntent "/d/a.wrr", Ev.syncLog, Ev.report "/d/a.wrr", Ev.reportFsync,
     Ev.finishCleanups] rfl (by rfl)

/-- Witness for the C2 theorem: a concrete two-device file system. -/
theorem move_exdev_downgrade_witness :
    runIntent ⟨Action.move, false⟩ (fun p => if p = "/in/a.wrr" then 1 else 2)
        [("/in/a.wrr", FNode.file [9, 9] 1 44 (some 0))]
        ⟨⟨"/in/a.wrr", ⟨1, 44⟩, some 0⟩, false⟩ "/dst/a.wrr" ⟨[], [], []⟩ false =
      .ok ([("/in/a.wrr", FNode.file [9, 9] 1 44 (some 0)),
            ("/dst/a.wrr", FNode.file [9, 9] 2 45 (some 0))],
           ⟨["/dst/a.wrr"], [dirname "/dst/a.wrr"], ["/in/a.wrr"]⟩,
           some ⟨"/in/a.wrr", ⟨1, 44⟩, some 0⟩) := by
  have h := (move_exdev_downgrade (fun p => if p = "/in/a.wrr" then 1 else 2)
    [("/in/a.wrr", FNode.file [9, 9] 1 44 (some 0))] "/in/a.wrr" "/dst/a.wrr"
    [9, 9] 1 44 (some 0) (some 0) ⟨1, 44⟩ false ⟨[], [], []⟩
    (by decide) rfl rfl (by decide)).1
  simpa [setKey, freshIno] using h
